import Mathlib

/-!
# duplicatecsv: a verification development

The program (`main.go`) scans CSV files in parallel.  One `parseFile` goroutine per
file skips the header row and sends the field at index 1 of every later row on the
unbuffered channel `codeChan`; `mapCodes` receives the values and counts them in a
`map[string]int`; a helper goroutine closes the channel once the `WaitGroup` is
drained; `main` then prints every entry whose count exceeds one and exits with the
global `exitCode`.

Modelling decisions

* `os.Open` and `csv.Reader.Read` are external.  A file is `none` when `os.Open`
  fails, and otherwise the finite list of results that successive calls of `r.Read()`
  return before `io.EOF`.
* Go's `int` is modelled by `Nat`: neither the row counter nor a frequency can reach
  `2^63` in an execution of feasible length.
* The goroutines are interleaved by an explicit schedule (a list of `Label`s).  A
  rendezvous on the unbuffered channel (the send in `parseFile` together with the
  receive and the map update in `mapCodes`) is one step, and so is each failure path
  of `parseFile` (the assignment to `exitCode`, `cnFn()` and the deferred
  `wg.Done()`).
* When several cases of a `select` are ready Go picks one at random: the schedule
  carries that choice.  The send expression `row[1]` is evaluated on entering the
  `select`, whichever case is taken.
* A run-time panic in a `parseFile` goroutine first runs its deferred calls, among
  them `wg.Done()` (line 97); the Go runtime then ends the process with status 2.
  Between the panic and that exit the other goroutines still run: the exit of the
  runtime is a step of its own (`Label.abort`), which the schedule places.
* When `main` returns, the deferred `os.Exit(exitCode)` of line 62 ends the process
  with the value that `exitCode` has after the report loop (`Label.exit`).  Nothing
  moves once the process has ended.

Where the source is embedded

* `parseFile` (lines 96-140): `parseFile.step`, one step of its body, and
  `parseFile.run`, the goroutine on its own.
* `mapCodes` (lines 142-149): `countCode` (the loop body) and `mapCodes`.
* `main` (lines 42-62): `Sys.init` (lines 42-47), `step` and `run` (the goroutines of
  lines 34-40, 46 and 49-53, the call of `mapCodes` of line 55 and the exit of line
  62), `reportLoop` (lines 55-59).
-/

namespace DuplicateCsv

/-! ## The frequency map (`map[string]int`) -/

/-- A Go `map[string]int`, as the list of its entries. -/
structure GoMap where
  entries : List (String × Nat)
deriving DecidableEq, Repr

namespace GoMap

/-- The map built by `make(map[string]int)`. -/
def empty : GoMap := ⟨[]⟩

/-- Search of a key in a list of entries. -/
def lookupIn (k : String) : List (String × Nat) → Option Nat
  | [] => none
  | (k', c) :: rest => if k' = k then some c else lookupIn k rest

/-- Comma-ok lookup: `c, ok := mp[k]`. -/
def lookup (m : GoMap) (k : String) : Option Nat := lookupIn k m.entries

/-- Plain lookup `mp[k]`: the zero value when the key is absent. -/
def get (m : GoMap) (k : String) : Nat := (m.lookup k).getD 0

/-- Assignment into a list of entries: overwrite the entry of `k`, or add one. -/
def setIn (k : String) (c : Nat) : List (String × Nat) → List (String × Nat)
  | [] => [(k, c)]
  | (k', c') :: rest => if k' = k then (k, c) :: rest else (k', c') :: setIn k c rest

/-- Assignment `mp[k] = c`. -/
def set (m : GoMap) (k : String) (c : Nat) : GoMap := ⟨setIn k c m.entries⟩

/-- The keys of the map. -/
def keys (m : GoMap) : List String := m.entries.map Prod.fst

/-- A Go map holds at most one entry per key. -/
def WF (m : GoMap) : Prop := m.keys.Nodup

instance (m : GoMap) : Decidable m.WF := by unfold WF; infer_instance

end GoMap

/-- The body of the loop of `mapCodes`: `mp[code] = mp[code] + 1`. -/
def countCode (mp : GoMap) (code : String) : GoMap := mp.set code (mp.get code + 1)

/-- Function `mapCodes` (main.go 142-149), on the sequence of values received from
`codeChan` before the channel is closed. -/
def mapCodes (received : List String) : GoMap := received.foldl countCode GoMap.empty

/-! ## The report loop of `main` -/

/-- The text written by
`fmt.Printf("DUPLICATE FOUND: %s found %v times\n", code, count)`. -/
def duplicateLine (code : String) (count : Nat) : String :=
  "DUPLICATE FOUND: " ++ code ++ " found " ++ toString count ++ " times\n"

/-- The loop `for code, count := range ... { if count > 1 { Printf } }` of `main`
(main.go 55-59), on the entries in the order in which the `range` yields them.  The
result is the list of the texts printed, in order. -/
def reportLoop : List (String × Nat) → List String
  | [] => []
  | (code, count) :: rest =>
    if count > 1 then duplicateLine code count :: reportLoop rest else reportLoop rest

/-! ## One `parseFile` goroutine -/

/-- What one call of `r.Read()` returns before `io.EOF`. -/
inductive ReadResult where
  /-- A decoded row: `err == nil`. -/
  | record (row : List String)
  /-- Any error other than `io.EOF`. -/
  | parseError
deriving DecidableEq, Repr

/-- A file as `parseFile` sees it: `none` when `os.Open` fails, else the results of
the successive reads up to `io.EOF`. -/
abbrev FileSource := Option (List ReadResult)

/-- Control state of one `parseFile` goroutine. -/
inductive Producer where
  /-- Started by `go parseFile(...)`; `os.Open` not yet called (line 99). -/
  | spawned (src : FileSource)
  /-- At the head of the `for` loop (line 113) with the reads still to come and the
  value of `count`. -/
  | reading (rest : List ReadResult) (count : Nat)
  /-- Blocked in the `select` (line 132); `row[1]` has been evaluated to `code`. -/
  | selecting (code : String) (rest : List ReadResult) (count : Nat)
  /-- The function has returned; the deferred `wg.Done()` has run. -/
  | returned
  /-- The goroutine panicked; its deferred `wg.Done()` has run. -/
  | crashed
deriving DecidableEq, Repr

/-- What a step of a `parseFile` goroutine does to the rest of the program. -/
inductive Effect where
  /-- Nothing visible: the file opened, the header was skipped, a row was read. -/
  | silent
  /-- The assignment `exitCode = code; cnFn()` followed by the return
  (lines 102-104 and 120-122). -/
  | fail (code : Nat)
  /-- The read returned `io.EOF`: `break` and return (lines 114-117). -/
  | eof
  /-- The case `codeChan <- row[1]` of the `select` (line 135). -/
  | send (code : String)
  /-- The case `<-ctx.Done()` of the `select`: return (lines 133-134). -/
  | sawDone
  /-- The index expression `row[1]` is out of range: run-time panic. -/
  | indexPanic
  /-- The send was attempted on a closed channel: run-time panic. -/
  | sendOnClosed
deriving DecidableEq, Repr

/-- One step of the body of `parseFile` (main.go 96-140).  `pickDone` is the case the
`select` takes; it matters only in state `selecting`.  The result is `none` when
the goroutine is over. -/
def parseFile.step (pickDone : Bool) : Producer → Option (Producer × Effect)
  | .spawned none => some (.returned, .fail 1)
  | .spawned (some rows) => some (.reading rows 0, .silent)
  | .reading [] _ => some (.returned, .eof)
  | .reading (.parseError :: _) _ => some (.returned, .fail 2)
  | .reading (.record row :: rest) count =>
    if count + 1 = 1 then some (.reading rest (count + 1), .silent)
    else
      match row[1]? with
      | none => some (.crashed, .indexPanic)
      | some code => some (.selecting code rest (count + 1), .silent)
  | .selecting code rest count =>
    if pickDone then some (.returned, .sawDone)
    else some (.reading rest count, .send code)
  | .returned => none
  | .crashed => none

/-! ## The whole program -/

/-- State of the program after `main` has started its goroutines (line 54). -/
structure Sys where
  /-- The `parseFile` goroutines, in the order of `files`. -/
  producers : List Producer
  /-- Counter of the `sync.WaitGroup`. -/
  wg : Nat
  /-- Whether `ctx.Done()` is closed, that is, `cancelFunc` has been called. -/
  ctxDone : Bool
  /-- The global `exitCode`. -/
  exitCode : Nat
  /-- Whether `close(codeChan)` has been executed. -/
  chanClosed : Bool
  /-- The local `mp` of `mapCodes`. -/
  mp : GoMap
  /-- Whether `mapCodes` has returned, so that `main` is in its report loop. -/
  collected : Bool
  /-- Whether a goroutine has panicked. -/
  panicked : Bool
  /-- The exit status of the process, once it has ended. -/
  exited : Option Nat
deriving DecidableEq, Repr

/-- The state in which `main` leaves the loop of lines 44-47: one goroutine per file,
`wg.Add(1)` done once per file, an empty map. -/
def Sys.init (files : List FileSource) : Sys where
  producers := files.map Producer.spawned
  wg := files.length
  ctxDone := false
  exitCode := 0
  chanClosed := false
  mp := GoMap.empty
  collected := false
  panicked := false
  exited := none

/-- A scheduling decision: which goroutine moves next. -/
inductive Label where
  /-- The `parseFile` goroutine of file `i` moves; `pickDone` is its `select` case. -/
  | producer (i : Nat) (pickDone : Bool)
  /-- The goroutine of lines 49-53 gets past `wg.Wait()` and closes `codeChan`. -/
  | close
  /-- The `range` of `mapCodes` sees the channel closed and `mapCodes` returns. -/
  | collect
  /-- The interrupt signal arrives and the goroutine of lines 34-40 calls
  `cancelFunc`. -/
  | interrupt
  /-- After the report loop `main` returns and the deferred `os.Exit(exitCode)` ends
  the process (line 62); registered last, it runs first, so the deferred function of
  lines 30-33 does not run. -/
  | exit
  /-- The Go runtime ends the process, with status 2, after a goroutine's panic. -/
  | abort
deriving DecidableEq, Repr

/-- What an observer sees of a step. -/
inductive Event where
  /-- A step of the `parseFile` goroutine of file `i`. -/
  | prod (i : Nat) (e : Effect)
  /-- The channel was closed. -/
  | closed
  /-- The function `mapCodes` returned. -/
  | collected
  /-- The context was cancelled by the interrupt signal. -/
  | interrupted
  /-- The process ended with the given status. -/
  | ended (status : Nat)
deriving DecidableEq, Repr

/-- The effect of a step of producer `i` on the shared state; `s1` is the state with
the producer already advanced.  `none`: the step is not enabled.  Every effect that
ends the goroutine, a panic included, runs the deferred `wg.Done()`.  A send on the
closed channel panics; that case is kept in the model and shown never to occur. -/
def applyEffect (s s1 : Sys) (i : Nat) : Effect → Option (Sys × Event)
  | .silent => some (s1, .prod i .silent)
  | .fail code =>
    some ({ s1 with exitCode := code, ctxDone := true, wg := s.wg - 1 }, .prod i (.fail code))
  | .eof => some ({ s1 with wg := s.wg - 1 }, .prod i .eof)
  | .sawDone =>
    if s.ctxDone then some ({ s1 with wg := s.wg - 1 }, .prod i .sawDone) else none
  | .send code =>
    if s.chanClosed then
      some ({ s with producers := s.producers.set i .crashed, panicked := true,
                     wg := s.wg - 1 },
        .prod i .sendOnClosed)
    else if s.collected then none
    else some ({ s1 with mp := countCode s.mp code }, .prod i (.send code))
  | .indexPanic => some ({ s1 with panicked := true, wg := s.wg - 1 }, .prod i .indexPanic)
  | .sendOnClosed => none

/-- One step of the program under the scheduling decision `l`; `none` when that
goroutine cannot move.  Nothing moves once the process has ended. -/
def step (s : Sys) : Label → Option (Sys × Event)
  | .producer i pickDone =>
    if s.exited.isSome then none
    else
      match s.producers[i]? with
      | none => none
      | some p =>
        match parseFile.step pickDone p with
        | none => none
        | some (p', eff) => applyEffect s { s with producers := s.producers.set i p' } i eff
  | .close =>
    if s.exited.isSome || s.chanClosed || s.wg != 0 then none
    else some ({ s with chanClosed := true }, .closed)
  | .collect =>
    if s.exited.isSome || s.collected || !s.chanClosed then none
    else some ({ s with collected := true }, .collected)
  | .interrupt =>
    if s.exited.isSome || s.ctxDone then none
    else some ({ s with ctxDone := true }, .interrupted)
  | .exit =>
    if s.exited.isSome || !s.collected then none
    else some ({ s with exited := some s.exitCode }, .ended s.exitCode)
  | .abort =>
    if s.exited.isSome || !s.panicked then none
    else some ({ s with exited := some 2 }, .ended 2)

/-- Execution under a schedule: the state reached and the events seen, or `none`
when some decision of the schedule is not enabled. -/
def run (s : Sys) : List Label → Option (Sys × List Event)
  | [] => some (s, [])
  | l :: ls =>
    match step s l with
    | none => none
    | some (s', e) =>
      match run s' ls with
      | none => none
      | some (s'', es) => some (s'', e :: es)

/-- The values that producer `i` handed to `mapCodes`, in order. -/
def sendsOf (i : Nat) : List Event → List String
  | [] => []
  | .prod j (.send code) :: es => if j = i then code :: sendsOf i es else sendsOf i es
  | _ :: es => sendsOf i es

/-- All values handed to `mapCodes`, in the order of their reception. -/
def received : List Event → List String
  | [] => []
  | .prod _ (.send code) :: es => code :: received es
  | _ :: es => received es

/-- The severities assigned to `exitCode`, in the order of the assignments. -/
def severities : List Event → List Nat
  | [] => []
  | .prod _ (.fail code) :: es => code :: severities es
  | _ :: es => severities es


/-- A `parseFile` goroutine run on its own for at most `fuel` steps, with
`ctx.Done()` never ready and every send accepted by the receiver: the state it ends
in and what it did, in order. -/
def parseFile.run : Nat → Producer → Producer × List Effect
  | 0, p => (p, [])
  | fuel + 1, p =>
    match parseFile.step false p with
    | none => (p, [])
    | some (p', e) => ((parseFile.run fuel p').1, e :: (parseFile.run fuel p').2)

/-- The values sent, among the effects of a goroutine. -/
def emitted : List Effect → List String
  | [] => []
  | .send code :: es => code :: emitted es
  | _ :: es => emitted es

/-- The values assigned to `exitCode`, among the effects of a goroutine. -/
def recorded : List Effect → List Nat
  | [] => []
  | .fail code :: es => code :: recorded es
  | _ :: es => recorded es

/-! ## Auxiliary definitions used in the proofs -/

/-- Value of a decimal digit character. -/
def digitValue (c : Char) : Nat := c.toNat - 48

/-- Value of a string of decimal digits read after the number `acc`. -/
def readDecimal (acc : Nat) (cs : List Char) : Nat :=
  cs.foldl (fun a c => 10 * a + digitValue c) acc

/-- An upper bound on the number of steps a `parseFile` goroutine can still take. -/
def Producer.fuel : Producer → Nat
  | .spawned none => 1
  | .spawned (some rows) => 2 * rows.length + 2
  | .reading rest _ => 2 * rest.length + 1
  | .selecting _ rest _ => 2 * rest.length + 2
  | .returned => 0
  | .crashed => 0

/-- The values that the loop of `parseFile` sends from the reads `rest` on, when it is
neither cancelled nor stopped by an error, a short row or the end of the file. -/
def pendingRows : List ReadResult → Nat → List String
  | [], _ => []
  | .parseError :: _, _ => []
  | .record row :: rest, count =>
    if count + 1 = 1 then pendingRows rest (count + 1)
    else
      match row[1]? with
      | none => []
      | some code => code :: pendingRows rest (count + 1)

/-- The values a goroutine still sends if it is never cancelled. -/
def Producer.pending : Producer → List String
  | .spawned none => []
  | .spawned (some rows) => pendingRows rows 0
  | .reading rest count => pendingRows rest count
  | .selecting code rest count => code :: pendingRows rest count
  | .returned => []
  | .crashed => []

/-- The values sent by one effect. -/
def Effect.sent : Effect → List String
  | .send code => [code]
  | _ => []

/-- The effects of reading and sending the data rows with the given index-1 fields. -/
def dataEffects : List String → List Effect
  | [] => []
  | code :: rest => .silent :: .send code :: dataEffects rest

/-- Number of rows after the header whose index-1 field is `v`. -/
def rowCount (rows : List (List String)) (v : String) : Nat :=
  (rows.tail.filter (fun r => decide (r[1]? = some v))).length

/-- What a goroutine contributes to the counter of the `WaitGroup`: one until its
deferred `wg.Done()` has run, on its return or on its panic. -/
def Producer.live : Producer → Nat
  | .returned => 0
  | .crashed => 0
  | _ => 1

/-- An upper bound on the number of steps the program can still take. -/
def Sys.measure (s : Sys) : Nat :=
  (s.producers.map Producer.fuel).sum + (if s.chanClosed then 0 else 1)
    + (if s.collected then 0 else 1) + (if s.ctxDone then 0 else 1)
    + (if s.exited.isSome then 0 else 1)

/-- The values producer `i` still sends if it is never cancelled. -/
def Sys.pendingAt (s : Sys) (i : Nat) : List String :=
  match s.producers[i]? with
  | some p => p.pending
  | none => []

/-- The values that an event hands over from producer `i`. -/
def Event.sentBy (i : Nat) : Event → List String
  | .prod j (.send code) => if j = i then [code] else []
  | _ => []

/-- The invariant of the close-after-join protocol. -/
structure Inv (s : Sys) : Prop where
  /-- The counter of the `WaitGroup` is the number of goroutines whose deferred
  `wg.Done()` has not run yet. -/
  wg_eq : s.wg = (s.producers.map Producer.live).sum
  /-- The channel is closed only when the counter is zero. -/
  closed_wg : s.chanClosed = true → s.wg = 0
  /-- The function `mapCodes` returns only on a closed channel. -/
  collected_closed : s.collected = true → s.chanClosed = true
  /-- A crashed goroutine has panicked. -/
  crashed_panicked : s.panicked = false → Producer.crashed ∉ s.producers
  /-- The process ends through the exit of the runtime after a panic, with status 2,
  or through the `os.Exit(exitCode)` of `main` after the report. -/
  exited_status : ∀ st, s.exited = some st →
    (s.panicked = true ∧ st = 2) ∨ (s.collected = true ∧ st = s.exitCode)

/-- A goroutine whose file opens and whose remaining reads all decode. -/
def Producer.Clean : Producer → Prop
  | .spawned none => False
  | .spawned (some rows) => ReadResult.parseError ∉ rows
  | .reading rest _ => ReadResult.parseError ∉ rest
  | .selecting _ rest _ => ReadResult.parseError ∉ rest
  | .returned => True
  | .crashed => True

/-- Whether the effect ends the goroutine, by a return or a panic, which runs the
deferred `wg.Done()`. -/
def Effect.finishes : Effect → Bool
  | .fail _ => true
  | .eof => true
  | .sawDone => true
  | .indexPanic => true
  | _ => false

/-- Whether the effect calls `cnFn()`. -/
def Effect.cancels : Effect → Bool
  | .fail _ => true
  | _ => false

/-- The value of `exitCode` after the effect. -/
def Effect.exitCodeAfter (old : Nat) : Effect → Nat
  | .fail code => code
  | _ => old

/-- The map of `mapCodes` after the effect. -/
def Effect.mapAfter (mp : GoMap) : Effect → GoMap
  | .send code => countCode mp code
  | _ => mp

/-- The value that an event hands over to `mapCodes`, if any. -/
def Event.handed : Event → List String
  | .prod _ (.send code) => [code]
  | _ => []

/-- The value that an event assigns to `exitCode`, if any. -/
def Event.severity : Event → List Nat
  | .prod _ (.fail code) => [code]
  | _ => []

/-- A goroutine that never reads a data row without an index-1 field. -/
def Producer.Safe : Producer → Prop
  | .spawned none => True
  | .spawned (some rows) => ∀ row, ReadResult.record row ∈ rows → 2 ≤ row.length
  | .reading rest _ => ∀ row, ReadResult.record row ∈ rest → 2 ≤ row.length
  | .selecting _ rest _ => ∀ row, ReadResult.record row ∈ rest → 2 ≤ row.length
  | .returned => True
  | .crashed => True

/-- The files that open and decode to the given rows. -/
def cleanFiles (rowss : List (List (List String))) : List FileSource :=
  rowss.map (fun rows => some (rows.map ReadResult.record))

/-- Number of rows after the header, over all files, whose index-1 field is `v`. -/
def totalCount (rowss : List (List (List String))) (v : String) : Nat :=
  (rowss.map (fun rows => rowCount rows v)).sum

/-! ## Concrete inputs and executions used as examples -/

/-- Two files with one data row each, sharing the code `A`. -/
def sharedCodeRows : List (List (List String)) :=
  [[["id", "code"], ["1", "A"]], [["id", "code"], ["2", "A"]]]

/-- A schedule for two files that alternates between the two goroutines. -/
def alternatingSchedule : List Label :=
  [.producer 0 false, .producer 1 false, .producer 1 false, .producer 0 false,
    .producer 1 false, .producer 0 false, .producer 1 false, .producer 0 false,
    .producer 0 false, .producer 1 false, .close, .collect]

/-- The state in which `alternatingSchedule` leaves the scan of `sharedCodeRows`. -/
def alternatingFinal : Sys where
  producers := [.returned, .returned]
  wg := 0
  ctxDone := false
  exitCode := 0
  chanClosed := true
  mp := ⟨[("A", 2)]⟩
  collected := true
  panicked := false
  exited := none

/-- The events of `alternatingSchedule` on `sharedCodeRows`. -/
def alternatingEvents : List Event :=
  [.prod 0 .silent, .prod 1 .silent, .prod 1 .silent, .prod 0 .silent, .prod 1 .silent,
    .prod 0 .silent, .prod 1 (.send "A"), .prod 0 (.send "A"), .prod 0 .eof, .prod 1 .eof,
    .closed, .collected]

/-- A file that cannot be opened, and a file whose first read fails. -/
def openThenDecodeFiles : List FileSource := [none, some [.parseError]]

/-- The open failure is recorded first, the decode failure second; then `main`
reports and exits. -/
def openThenDecodeSchedule : List Label :=
  [.producer 0 false, .producer 1 false, .producer 1 false, .close, .collect, .exit]

/-- The state in which `openThenDecodeSchedule` leaves `openThenDecodeFiles`. -/
def openThenDecodeFinal : Sys where
  producers := [.returned, .returned]
  wg := 0
  ctxDone := true
  exitCode := 2
  chanClosed := true
  mp := ⟨[]⟩
  collected := true
  panicked := false
  exited := some 2

/-- The events of `openThenDecodeSchedule` on `openThenDecodeFiles`. -/
def openThenDecodeEvents : List Event :=
  [.prod 0 (.fail 1), .prod 1 .silent, .prod 1 (.fail 2), .closed, .collected, .ended 2]

/-- A file that cannot be opened, and a valid file with the code `A` twice. -/
def unreadableAndPair : List FileSource :=
  [none, some [.record ["id", "code"], .record ["1", "A"], .record ["2", "A"]]]

/-- The open failure comes first; the second goroutine sends its first code and sees
the cancellation at its second `select`. -/
def cancelledMidwaySchedule : List Label :=
  [.producer 0 false, .producer 1 false, .producer 1 false, .producer 1 false,
    .producer 1 false, .producer 1 false, .producer 1 true, .close, .collect]

/-- The state in which `cancelledMidwaySchedule` leaves `unreadableAndPair`. -/
def cancelledMidwayFinal : Sys where
  producers := [.returned, .returned]
  wg := 0
  ctxDone := true
  exitCode := 1
  chanClosed := true
  mp := ⟨[("A", 1)]⟩
  collected := true
  panicked := false
  exited := none

/-- The events of `cancelledMidwaySchedule` on `unreadableAndPair`. -/
def cancelledMidwayEvents : List Event :=
  [.prod 0 (.fail 1), .prod 1 .silent, .prod 1 .silent, .prod 1 .silent,
    .prod 1 (.send "A"), .prod 1 .silent, .prod 1 .sawDone, .closed, .collected]

/-- A file of one column: a header and one data row, both of a single field. -/
def oneColumnFile : FileSource := some [.record ["code"], .record ["A"]]

/-- The goroutine of `oneColumnFile` runs up to its panic, then the runtime ends the
process. -/
def panicThenAbort : List Label :=
  [.producer 0 false, .producer 0 false, .producer 0 false, .abort]

/-- The state in which `panicThenAbort` leaves the scan of `oneColumnFile`: the
deferred `wg.Done()` has run, the channel is open, `mapCodes` has not returned and
the process has ended with status 2. -/
def oneColumnAborted : Sys where
  producers := [.crashed]
  wg := 0
  ctxDone := false
  exitCode := 0
  chanClosed := false
  mp := ⟨[]⟩
  collected := false
  panicked := true
  exited := some 2

/-- The events of `panicThenAbort` on `oneColumnFile`. -/
def oneColumnAbortedEvents : List Event :=
  [.prod 0 .silent, .prod 0 .silent, .prod 0 .indexPanic, .ended 2]

/-- The control states that the goroutine of `oneColumnFile`, scanned alone, can be
in: it never returns. -/
def OneColumnStates (s : Sys) : Prop :=
  s.producers = [.spawned oneColumnFile] ∨
    s.producers = [.reading [.record ["code"], .record ["A"]] 0] ∨
    s.producers = [.reading [.record ["A"]] 1] ∨
    s.producers = [.crashed]

/-! ## Lemmas on the frequency map -/

theorem GoMap.lookupIn_setIn_self (k : String) (c : Nat) (es : List (String × Nat)) :
    lookupIn k (setIn k c es) = some c := by
  induction es with
  | nil => simp [setIn, lookupIn]
  | cons e rest ih =>
    obtain ⟨k', c'⟩ := e
    by_cases h : k' = k
    · simp [setIn, lookupIn, h]
    · simp [setIn, lookupIn, h, ih]

theorem GoMap.lookupIn_setIn_other (k k2 : String) (c : Nat) (es : List (String × Nat))
    (h2 : k2 ≠ k) : lookupIn k2 (setIn k c es) = lookupIn k2 es := by
  induction es with
  | nil => simp [setIn, lookupIn, Ne.symm h2]
  | cons e rest ih =>
    obtain ⟨k', c'⟩ := e
    by_cases h : k' = k
    · subst h
      simp [setIn, lookupIn, Ne.symm h2]
    · simp [setIn, lookupIn, h, ih]

theorem GoMap.mem_keys_setIn (k k2 : String) (c : Nat) (es : List (String × Nat)) :
    k2 ∈ (setIn k c es).map Prod.fst ↔ k2 = k ∨ k2 ∈ es.map Prod.fst := by
  induction es with
  | nil => simp [setIn]
  | cons e rest ih =>
    obtain ⟨k', c'⟩ := e
    by_cases h : k' = k
    · subst h
      simp [setIn]
    · simp only [setIn, h, if_false, List.map_cons, List.mem_cons, ih]
      tauto

theorem GoMap.nodup_keys_setIn (k : String) (c : Nat) (es : List (String × Nat))
    (h : (es.map Prod.fst).Nodup) : ((setIn k c es).map Prod.fst).Nodup := by
  induction es with
  | nil => simp [setIn]
  | cons e rest ih =>
    obtain ⟨k', c'⟩ := e
    simp only [List.map_cons, List.nodup_cons] at h
    by_cases hk : k' = k
    · subst hk
      simpa [setIn] using h
    · simp only [setIn, hk, if_false, List.map_cons, List.nodup_cons]
      refine ⟨?_, ih h.2⟩
      rw [mem_keys_setIn]
      rintro (h1 | h1)
      · exact hk h1
      · exact h.1 h1

theorem GoMap.lookupIn_eq_none_iff (k : String) (es : List (String × Nat)) :
    lookupIn k es = none ↔ k ∉ es.map Prod.fst := by
  induction es with
  | nil => simp [lookupIn]
  | cons e rest ih =>
    obtain ⟨k', c'⟩ := e
    by_cases h : k' = k
    · simp [lookupIn, h]
    · simp [lookupIn, h, ih, Ne.symm h]

theorem GoMap.lookupIn_eq_some_iff (k : String) (c : Nat) (es : List (String × Nat))
    (hn : (es.map Prod.fst).Nodup) : lookupIn k es = some c ↔ (k, c) ∈ es := by
  induction es with
  | nil => simp [lookupIn]
  | cons e rest ih =>
    obtain ⟨k', c'⟩ := e
    simp only [List.map_cons, List.nodup_cons] at hn
    by_cases h : k' = k
    · subst h
      have hno : ∀ x, (k', x) ∉ rest := fun x hx => hn.1 (List.mem_map_of_mem Prod.fst hx)
      simp only [lookupIn, if_true, Option.some.injEq, List.mem_cons, Prod.mk.injEq, true_and]
      constructor
      · intro hc
        exact Or.inl hc.symm
      · rintro (hc | hc)
        · exact hc.symm
        · exact absurd hc (hno c)
    · simp only [lookupIn, h, if_false, ih hn.2, List.mem_cons, Prod.mk.injEq]
      constructor
      · intro hm
        exact Or.inr hm
      · rintro (hc | hc)
        · exact absurd hc.1.symm h
        · exact hc

theorem lookup_countCode_self (mp : GoMap) (code : String) :
    (countCode mp code).lookup code = some (mp.get code + 1) := by
  simp [countCode, GoMap.set, GoMap.lookup, GoMap.lookupIn_setIn_self]

theorem lookup_countCode_other (mp : GoMap) (code k : String) (h : k ≠ code) :
    (countCode mp code).lookup k = mp.lookup k := by
  simp [countCode, GoMap.set, GoMap.lookup, GoMap.lookupIn_setIn_other _ _ _ _ h]

theorem get_countCode (mp : GoMap) (code k : String) :
    (countCode mp code).get k = mp.get k + (if k = code then 1 else 0) := by
  by_cases h : k = code
  · subst h
    simp [GoMap.get, lookup_countCode_self]
  · simp [GoMap.get, lookup_countCode_other _ _ _ h, h]

theorem wf_countCode (mp : GoMap) (code : String) (h : mp.WF) : (countCode mp code).WF :=
  GoMap.nodup_keys_setIn _ _ _ h

theorem mem_keys_countCode (mp : GoMap) (code k : String) :
    k ∈ (countCode mp code).keys ↔ k = code ∨ k ∈ mp.keys :=
  GoMap.mem_keys_setIn _ _ _ _

/-- The counting loop started on any map: the entry of `v` after the loop. -/
theorem lookup_foldl_countCode (xs : List String) (mp : GoMap) (v : String) :
    (xs.foldl countCode mp).lookup v =
      if v ∈ xs then some (mp.get v + xs.count v) else mp.lookup v := by
  induction xs generalizing mp with
  | nil => simp
  | cons x rest ih =>
    rw [List.foldl_cons, ih]
    by_cases hx : v = x
    · subst hx
      by_cases hr : v ∈ rest
      · simp [hr, get_countCode]
        omega
      · simp [hr, lookup_countCode_self, List.count_eq_zero_of_not_mem hr]
    · have hx2 : ¬ x = v := fun h => hx h.symm
      by_cases hr : v ∈ rest
      · simp [hr, hx, get_countCode, List.count_cons, hx2]
      · simp [hr, hx, lookup_countCode_other _ _ _ hx]

theorem get_foldl_countCode (xs : List String) (mp : GoMap) (v : String) :
    (xs.foldl countCode mp).get v = mp.get v + xs.count v := by
  unfold GoMap.get
  rw [lookup_foldl_countCode]
  by_cases h : v ∈ xs
  · simp [h, GoMap.get]
  · simp [h, List.count_eq_zero_of_not_mem h]

theorem wf_foldl_countCode (xs : List String) (mp : GoMap) (h : mp.WF) :
    (xs.foldl countCode mp).WF := by
  induction xs generalizing mp with
  | nil => simpa using h
  | cons x rest ih => exact ih _ (wf_countCode _ _ h)

theorem wf_empty : GoMap.empty.WF := by
  simp [GoMap.WF, GoMap.keys, GoMap.empty]

theorem lookup_mapCodes (xs : List String) (v : String) :
    (mapCodes xs).lookup v = if v ∈ xs then some (xs.count v) else none := by
  unfold mapCodes
  rw [lookup_foldl_countCode]
  simp [GoMap.get, GoMap.lookup, GoMap.empty, GoMap.lookupIn]

theorem wf_mapCodes (xs : List String) : (mapCodes xs).WF :=
  wf_foldl_countCode _ _ wf_empty

theorem mem_keys_iff_lookup (m : GoMap) (k : String) :
    k ∈ m.keys ↔ m.lookup k ≠ none := by
  unfold GoMap.keys GoMap.lookup
  rw [Ne, GoMap.lookupIn_eq_none_iff]
  simp

/-- Two maps with the same content hold the same entries, in some order. -/
theorem entries_perm_of_lookup_eq (m1 m2 : GoMap) (h1 : m1.WF) (h2 : m2.WF)
    (h : ∀ k, m1.lookup k = m2.lookup k) : m1.entries.Perm m2.entries := by
  have n1 : m1.entries.Nodup := List.Nodup.of_map _ h1
  have n2 : m2.entries.Nodup := List.Nodup.of_map _ h2
  rw [List.perm_ext_iff_of_nodup n1 n2]
  rintro ⟨k, c⟩
  rw [← GoMap.lookupIn_eq_some_iff k c _ h1, ← GoMap.lookupIn_eq_some_iff k c _ h2]
  have := h k
  unfold GoMap.lookup at this
  rw [this]

/-! ## Lemmas on the printed line -/

theorem digitValue_digitChar (k : Nat) (h : k < 10) : digitValue (Nat.digitChar k) = k := by
  interval_cases k <;> rfl

theorem digitChar_ne_space (k : Nat) (h : k < 10) : Nat.digitChar k ≠ ' ' := by
  interval_cases k <;> decide

theorem readDecimal_toDigitsCore (fuel n : Nat) (ds : List Char) (h : n < fuel) :
    readDecimal 0 (Nat.toDigitsCore 10 fuel n ds) = readDecimal n ds := by
  induction fuel generalizing n ds with
  | zero => omega
  | succ fuel ih =>
    have hmod : n % 10 < 10 := Nat.mod_lt _ (by decide)
    unfold Nat.toDigitsCore
    by_cases h0 : n / 10 = 0
    · simp only [h0, if_true]
      have hn : n % 10 = n := Nat.mod_eq_of_lt (by omega)
      simp only [readDecimal, List.foldl_cons, Nat.mul_zero, Nat.zero_add]
      rw [digitValue_digitChar _ hmod, hn]
    · simp only [h0, if_false]
      rw [ih (n / 10) _ (by omega)]
      simp only [readDecimal, List.foldl_cons, digitValue_digitChar _ hmod]
      congr 1
      omega

theorem toDigitsCore_no_space (fuel n : Nat) (ds : List Char) (h : ' ' ∉ ds) :
    ' ' ∉ Nat.toDigitsCore 10 fuel n ds := by
  induction fuel generalizing n ds with
  | zero => simpa [Nat.toDigitsCore] using h
  | succ fuel ih =>
    have hmod : n % 10 < 10 := Nat.mod_lt _ (by decide)
    have hc : ' ' ∉ Nat.digitChar (n % 10) :: ds := by
      simp only [List.mem_cons, not_or]
      exact ⟨fun e => digitChar_ne_space _ hmod e.symm, h⟩
    unfold Nat.toDigitsCore
    by_cases h0 : n / 10 = 0
    · simpa only [h0, if_true] using hc
    · simp only [h0, if_false]
      exact ih _ _ hc

theorem data_toString_nat (n : Nat) : (toString n).data = Nat.toDigits 10 n := rfl

theorem toString_nat_injective (a b : Nat) (h : toString a = toString b) : a = b := by
  have h1 : (toString a).data = (toString b).data := by rw [h]
  rw [data_toString_nat, data_toString_nat] at h1
  have ha := readDecimal_toDigitsCore (a + 1) a [] (by omega)
  have hb := readDecimal_toDigitsCore (b + 1) b [] (by omega)
  unfold Nat.toDigits at h1
  rw [h1, hb] at ha
  simpa [readDecimal] using ha.symm

theorem toString_nat_no_space (n : Nat) : ' ' ∉ (toString n).data := by
  rw [data_toString_nat]
  exact toDigitsCore_no_space _ _ _ (by simp)

/-- Two texts that agree after a separator which occurs in neither head are equal
piece by piece. -/
theorem append_sep_inj (sep : Char) (a b x y : List Char) (ha : sep ∉ a) (hb : sep ∉ b)
    (h : a ++ sep :: x = b ++ sep :: y) : a = b ∧ x = y := by
  induction a generalizing b with
  | nil =>
    cases b with
    | nil => simpa using h
    | cons c b =>
      simp only [List.nil_append, List.cons_append, List.cons.injEq] at h
      exact absurd (by simp [h.1]) hb
  | cons c a ih =>
    cases b with
    | nil =>
      simp only [List.nil_append, List.cons_append, List.cons.injEq] at h
      exact absurd (by simp [h.1]) ha
    | cons d b =>
      simp only [List.cons_append, List.cons.injEq] at h
      simp only [List.mem_cons, not_or] at ha hb
      obtain ⟨e1, e2⟩ := ih b ha.2 hb.2 h.2
      exact ⟨by rw [h.1, e1], e2⟩

theorem data_duplicateLine (code : String) (count : Nat) :
    (duplicateLine code count).data =
      "DUPLICATE FOUND: ".data ++ (code.data ++ (" found ".data ++
        ((toString count).data ++ " times\n".data))) := by
  simp [duplicateLine, String.data_append]

/-- The printed line determines the entry it was printed for. -/
theorem duplicateLine_injective (v w : String) (c d : Nat)
    (h : duplicateLine v c = duplicateLine w d) : v = w ∧ c = d := by
  have h1 : (duplicateLine v c).data = (duplicateLine w d).data := by rw [h]
  rw [data_duplicateLine, data_duplicateLine] at h1
  have h2 := List.append_cancel_left h1
  rw [← List.append_assoc, ← List.append_assoc, ← List.append_assoc, ← List.append_assoc]
    at h2
  have h3 := List.append_cancel_right h2
  have h4 := congrArg List.reverse h3
  simp only [List.reverse_append] at h4
  have hrev : " found ".data.reverse = ' ' :: "dnuof ".data := by decide
  rw [hrev] at h4
  simp only [List.append_assoc, List.cons_append] at h4
  have hc := toString_nat_no_space c
  have hd := toString_nat_no_space d
  obtain ⟨e1, e2⟩ := append_sep_inj ' ' _ _ _ _ (by simpa using hc) (by simpa using hd) h4
  have e3 : v.data.reverse = w.data.reverse := by simpa using e2
  have e4 : v.data = w.data := List.reverse_injective e3
  have e5 : (toString c).data = (toString d).data := List.reverse_injective e1
  exact ⟨String.ext e4, toString_nat_injective _ _ (String.ext e5)⟩

theorem reportLoop_eq (es : List (String × Nat)) :
    reportLoop es =
      (es.filter (fun e => decide (e.2 > 1))).map (fun e => duplicateLine e.1 e.2) := by
  induction es with
  | nil => rfl
  | cons e rest ih =>
    obtain ⟨k, c⟩ := e
    by_cases h : c > 1
    · simp [reportLoop, h, ih]
    · simp [reportLoop, h, ih]

theorem reportLoop_perm (es fs : List (String × Nat)) (h : es.Perm fs) :
    (reportLoop es).Perm (reportLoop fs) := by
  rw [reportLoop_eq, reportLoop_eq]
  exact (h.filter _).map _

/-- Number of times a line is printed for a duplicate-free list of entries. -/
theorem count_reportLoop (es : List (String × Nat)) (hn : es.Nodup) (v : String) (c : Nat) :
    (reportLoop es).count (duplicateLine v c) = if (v, c) ∈ es ∧ c > 1 then 1 else 0 := by
  induction es with
  | nil => simp [reportLoop]
  | cons e rest ih =>
    obtain ⟨k, n⟩ := e
    rw [List.nodup_cons] at hn
    have ih2 := ih hn.2
    by_cases hkn : (k, n) = (v, c)
    · obtain ⟨rfl, rfl⟩ := Prod.mk.inj hkn
      have hnot : (k, n) ∉ rest := hn.1
      by_cases hc : n > 1
      · simp [reportLoop, hc, ih2, hnot]
      · simp [reportLoop, hc, ih2, hnot]
    · have hne : duplicateLine k n ≠ duplicateLine v c := by
        intro he
        obtain ⟨e1, e2⟩ := duplicateLine_injective _ _ _ _ he
        exact hkn (by rw [e1, e2])
      have hkn2 : ¬ ((v, c) = (k, n)) := fun e => hkn e.symm
      by_cases hc : n > 1
      · simp only [reportLoop, hc, if_true, List.count_cons, ih2, List.mem_cons, hkn2,
          false_or, beq_iff_eq, hne, if_false, add_zero]
      · simp only [reportLoop, hc, if_false, ih2, List.mem_cons, hkn2, false_or]

/-! ## Lemmas on one `parseFile` goroutine -/

theorem Producer.fuel_step (b : Bool) (p p' : Producer) (e : Effect)
    (h : parseFile.step b p = some (p', e)) : p'.fuel < p.fuel := by
  cases p with
  | spawned src =>
    cases src with
    | none =>
      simp only [parseFile.step, Option.some.injEq, Prod.mk.injEq] at h
      rw [← h.1]
      simp only [Producer.fuel, List.length_cons]
      omega
    | some rows =>
      simp only [parseFile.step, Option.some.injEq, Prod.mk.injEq] at h
      rw [← h.1]
      simp only [Producer.fuel, List.length_cons]
      omega
  | reading rest count =>
    cases rest with
    | nil =>
      simp only [parseFile.step, Option.some.injEq, Prod.mk.injEq] at h
      rw [← h.1]
      simp only [Producer.fuel, List.length_cons]
      omega
    | cons r rest =>
      cases r with
      | parseError =>
        simp only [parseFile.step, Option.some.injEq, Prod.mk.injEq] at h
        rw [← h.1]
        simp only [Producer.fuel, List.length_cons]
        omega
      | record row =>
        simp only [parseFile.step] at h
        split at h
        · simp only [Option.some.injEq, Prod.mk.injEq] at h
          rw [← h.1]
          simp only [Producer.fuel, List.length_cons]
          omega
        · split at h
          · simp only [Option.some.injEq, Prod.mk.injEq] at h
            rw [← h.1]
            simp only [Producer.fuel, List.length_cons]
            omega
          · simp only [Option.some.injEq, Prod.mk.injEq] at h
            rw [← h.1]
            simp only [Producer.fuel, List.length_cons]
            omega
  | selecting code rest count =>
    simp only [parseFile.step] at h
    split at h
    · simp only [Option.some.injEq, Prod.mk.injEq] at h
      rw [← h.1]
      simp only [Producer.fuel, List.length_cons]
      omega
    · simp only [Option.some.injEq, Prod.mk.injEq] at h
      rw [← h.1]
      simp only [Producer.fuel, List.length_cons]
      omega
  | returned => simp [parseFile.step] at h
  | crashed => simp [parseFile.step] at h

/-- A step never adds values to those still to be sent, and what it sends is the
head of them. -/
theorem Producer.sent_pending_le (b : Bool) (p p' : Producer) (e : Effect)
    (h : parseFile.step b p = some (p', e)) : e.sent ++ p'.pending <+: p.pending := by
  cases p with
  | spawned src =>
    cases src with
    | none =>
      simp only [parseFile.step, Option.some.injEq, Prod.mk.injEq] at h
      rw [← h.1, ← h.2]
      simp [Producer.pending, Effect.sent]
    | some rows =>
      simp only [parseFile.step, Option.some.injEq, Prod.mk.injEq] at h
      rw [← h.1, ← h.2]
      simp [Producer.pending, Effect.sent]
  | reading rest count =>
    cases rest with
    | nil =>
      simp only [parseFile.step, Option.some.injEq, Prod.mk.injEq] at h
      rw [← h.1, ← h.2]
      simp [Producer.pending, Effect.sent]
    | cons r rest =>
      cases r with
      | parseError =>
        simp only [parseFile.step, Option.some.injEq, Prod.mk.injEq] at h
        rw [← h.1, ← h.2]
        simp [Producer.pending, Effect.sent]
      | record row =>
        simp only [parseFile.step] at h
        split at h
        · rename_i hc
          simp only [Option.some.injEq, Prod.mk.injEq] at h
          rw [← h.1, ← h.2]
          simp [Producer.pending, Effect.sent, pendingRows, hc]
        · rename_i hc
          split at h
          · simp only [Option.some.injEq, Prod.mk.injEq] at h
            rw [← h.1, ← h.2]
            simp [Producer.pending, Effect.sent]
          · rename_i code hcode
            simp only [Option.some.injEq, Prod.mk.injEq] at h
            rw [← h.1, ← h.2]
            simp [Producer.pending, Effect.sent, pendingRows, hc, hcode]
  | selecting code rest count =>
    simp only [parseFile.step] at h
    split at h
    · simp only [Option.some.injEq, Prod.mk.injEq] at h
      rw [← h.1, ← h.2]
      simp [Producer.pending, Effect.sent]
    · simp only [Option.some.injEq, Prod.mk.injEq] at h
      rw [← h.1, ← h.2]
      simp [Producer.pending, Effect.sent]
  | returned => simp [parseFile.step] at h
  | crashed => simp [parseFile.step] at h

/-- Unless the step takes the case `<-ctx.Done()`, the values still to be sent are
those of before, less the one sent. -/
theorem Producer.sent_pending_eq (b : Bool) (p p' : Producer) (e : Effect)
    (h : parseFile.step b p = some (p', e)) (hd : e ≠ .sawDone) :
    e.sent ++ p'.pending = p.pending := by
  cases p with
  | spawned src =>
    cases src with
    | none =>
      simp only [parseFile.step, Option.some.injEq, Prod.mk.injEq] at h
      rw [← h.1, ← h.2]
      simp [Producer.pending, Effect.sent]
    | some rows =>
      simp only [parseFile.step, Option.some.injEq, Prod.mk.injEq] at h
      rw [← h.1, ← h.2]
      simp [Producer.pending, Effect.sent]
  | reading rest count =>
    cases rest with
    | nil =>
      simp only [parseFile.step, Option.some.injEq, Prod.mk.injEq] at h
      rw [← h.1, ← h.2]
      simp [Producer.pending, Effect.sent, pendingRows]
    | cons r rest =>
      cases r with
      | parseError =>
        simp only [parseFile.step, Option.some.injEq, Prod.mk.injEq] at h
        rw [← h.1, ← h.2]
        simp [Producer.pending, Effect.sent, pendingRows]
      | record row =>
        simp only [parseFile.step] at h
        split at h
        · rename_i hc
          simp only [Option.some.injEq, Prod.mk.injEq] at h
          rw [← h.1, ← h.2]
          simp [Producer.pending, Effect.sent, pendingRows, hc]
        · rename_i hc
          split at h
          · rename_i hcode
            simp only [Option.some.injEq, Prod.mk.injEq] at h
            rw [← h.1, ← h.2]
            simp [Producer.pending, Effect.sent, pendingRows, hc, hcode]
          · rename_i code hcode
            simp only [Option.some.injEq, Prod.mk.injEq] at h
            rw [← h.1, ← h.2]
            simp [Producer.pending, Effect.sent, pendingRows, hc, hcode]
  | selecting code rest count =>
    simp only [parseFile.step] at h
    split at h
    · simp only [Option.some.injEq, Prod.mk.injEq] at h
      exact absurd h.2.symm hd
    · simp only [Option.some.injEq, Prod.mk.injEq] at h
      rw [← h.1, ← h.2]
      simp [Producer.pending, Effect.sent]
  | returned => simp [parseFile.step] at h
  | crashed => simp [parseFile.step] at h

theorem parseFile.run_returned (fuel : Nat) :
    parseFile.run fuel .returned = (.returned, []) := by
  cases fuel <;> simp [parseFile.run, parseFile.step]

theorem parseFile.run_crashed (fuel : Nat) :
    parseFile.run fuel .crashed = (.crashed, []) := by
  cases fuel <;> simp [parseFile.run, parseFile.step]

theorem emitted_append (as bs : List Effect) : emitted (as ++ bs) = emitted as ++ emitted bs := by
  induction as with
  | nil => rfl
  | cons a rest ih => cases a <;> simp [emitted, ih]

theorem recorded_append (as bs : List Effect) :
    recorded (as ++ bs) = recorded as ++ recorded bs := by
  induction as with
  | nil => rfl
  | cons a rest ih => cases a <;> simp [recorded, ih]

theorem emitted_dataEffects (codes : List String) : emitted (dataEffects codes) = codes := by
  induction codes with
  | nil => rfl
  | cons c rest ih => simp [dataEffects, emitted, ih]

theorem recorded_dataEffects (codes : List String) : recorded (dataEffects codes) = [] := by
  induction codes with
  | nil => rfl
  | cons c rest ih => simp [dataEffects, recorded, ih]

/-- Reading and sending a run of well-formed data rows, after the header. -/
theorem parseFile.run_data (data : List (List String)) (codes : List String)
    (hc : data.map (fun r => r[1]?) = codes.map some) (rest : List ReadResult)
    (count n : Nat) (hcount : 1 ≤ count) :
    parseFile.run (2 * data.length + n)
        (.reading (data.map ReadResult.record ++ rest) count) =
      ((parseFile.run n (.reading rest (count + data.length))).1,
        dataEffects codes ++ (parseFile.run n (.reading rest (count + data.length))).2) := by
  induction data generalizing codes count with
  | nil =>
    cases codes with
    | nil => simp [dataEffects]
    | cons c cs => simp at hc
  | cons r data ih =>
    cases codes with
    | nil => simp at hc
    | cons c cs =>
      simp only [List.map_cons, List.cons.injEq] at hc
      have e : 2 * (r :: data).length + n = (2 * data.length + n) + 1 + 1 := by
        simp only [List.length_cons]
        omega
      have hne : ¬ (count + 1 = 1) := by omega
      rw [e]
      simp only [parseFile.run, parseFile.step, List.map_cons, List.cons_append, hne,
        if_false, hc.1, Bool.false_eq_true]
      rw [ih cs hc.2 (count + 1) (by omega)]
      simp only [dataEffects, List.cons_append, List.length_cons]
      have e2 : count + 1 + data.length = count + (data.length + 1) := by omega
      rw [e2]

theorem pendingRows_data (data : List (List String)) (codes : List String)
    (hc : data.map (fun r => r[1]?) = codes.map some) (rest : List ReadResult)
    (count : Nat) (hcount : 1 ≤ count) :
    pendingRows (data.map ReadResult.record ++ rest) count =
      codes ++ pendingRows rest (count + data.length) := by
  induction data generalizing codes count with
  | nil =>
    cases codes with
    | nil => simp
    | cons c cs => simp at hc
  | cons r data ih =>
    cases codes with
    | nil => simp at hc
    | cons c cs =>
      simp only [List.map_cons, List.cons.injEq] at hc
      have hne : ¬ (count + 1 = 1) := by omega
      simp only [List.map_cons, List.cons_append, pendingRows, hne, if_false, hc.1,
        List.append_eq]
      rw [ih cs hc.2 (count + 1) (by omega)]
      simp only [List.cons_append, List.length_cons]
      have e2 : count + 1 + data.length = count + (data.length + 1) := by omega
      rw [e2]

/-- Rows of at least two fields all have an index-1 field. -/
theorem codes_of_two_fields (data : List (List String)) (h : ∀ r ∈ data, 2 ≤ r.length) :
    ∃ codes : List String, data.map (fun r => r[1]?) = codes.map some := by
  induction data with
  | nil => exact ⟨[], rfl⟩
  | cons r data ih =>
    obtain ⟨cs, hcs⟩ := ih (fun x hx => h x (List.mem_cons_of_mem _ hx))
    have hr : 1 < r.length := h r (List.mem_cons_self _ _)
    refine ⟨r[1] :: cs, ?_⟩
    simp [hcs, List.getElem?_eq_getElem hr]

theorem count_codes (data : List (List String)) (codes : List String)
    (hc : data.map (fun r => r[1]?) = codes.map some) (v : String) :
    codes.count v = (data.filter (fun r => decide (r[1]? = some v))).length := by
  induction data generalizing codes with
  | nil =>
    cases codes with
    | nil => simp
    | cons c cs => simp at hc
  | cons r data ih =>
    cases codes with
    | nil => simp at hc
    | cons c cs =>
      simp only [List.map_cons, List.cons.injEq] at hc
      have ih2 := ih cs hc.2
      by_cases hv : c = v
      · subst hv
        simp [List.filter_cons, hc.1, ih2]
      · simp [List.filter_cons, hc.1, ih2, List.count_cons, hv]

/-! ## Lemmas on the steps of the program -/

theorem sum_map_set {α : Type} (f : α → Nat) (l : List α) (i : Nat) (a b : α)
    (h : l[i]? = some b) : ((l.set i a).map f).sum + f b = (l.map f).sum + f a := by
  induction l generalizing i with
  | nil => simp at h
  | cons x rest ih =>
    cases i with
    | zero =>
      simp only [List.getElem?_cons_zero, Option.some.injEq] at h
      subst h
      simp only [List.set_cons_zero, List.map_cons, List.sum_cons]
      omega
    | succ i =>
      simp only [List.getElem?_cons_succ] at h
      have := ih i h
      simp only [List.set_cons_succ, List.map_cons, List.sum_cons]
      omega

theorem isSome_false_iff {α : Type} (o : Option α) : o.isSome = false ↔ o = none := by
  cases o <;> simp

theorem step_producer_inv (s s' : Sys) (j : Nat) (b : Bool) (e : Event)
    (h : step s (.producer j b) = some (s', e)) :
    s.exited = none ∧ ∃ p p' eff, s.producers[j]? = some p ∧
      parseFile.step b p = some (p', eff) ∧
      applyEffect s { s with producers := s.producers.set j p' } j eff = some (s', e) := by
  simp only [step] at h
  split at h
  · simp at h
  · rename_i hp
    split at h
    · simp at h
    · rename_i p hp2
      split at h
      · simp at h
      · rename_i p' eff hstep
        exact ⟨by simpa [isSome_false_iff] using hp, p, p', eff, hp2, hstep, h⟩

theorem step_close_inv (s s' : Sys) (e : Event) (h : step s .close = some (s', e)) :
    s.exited = none ∧ s.chanClosed = false ∧ s.wg = 0 ∧
      s' = { s with chanClosed := true } ∧ e = .closed := by
  simp only [step] at h
  split at h
  · simp at h
  · rename_i hc
    simp only [Bool.or_eq_true, bne_iff_ne, ne_eq, not_or, Bool.not_eq_true, not_not,
      isSome_false_iff] at hc
    simp only [Option.some.injEq, Prod.mk.injEq] at h
    exact ⟨hc.1.1, hc.1.2, hc.2, h.1.symm, h.2.symm⟩

theorem step_collect_inv (s s' : Sys) (e : Event) (h : step s .collect = some (s', e)) :
    s.exited = none ∧ s.collected = false ∧ s.chanClosed = true ∧
      s' = { s with collected := true } ∧ e = .collected := by
  simp only [step] at h
  split at h
  · simp at h
  · rename_i hc
    simp only [Bool.or_eq_true, Bool.not_eq_true', not_or, Bool.not_eq_true,
      Bool.not_eq_false, isSome_false_iff] at hc
    simp only [Option.some.injEq, Prod.mk.injEq] at h
    exact ⟨hc.1.1, hc.1.2, hc.2, h.1.symm, h.2.symm⟩

theorem step_interrupt_inv (s s' : Sys) (e : Event) (h : step s .interrupt = some (s', e)) :
    s.exited = none ∧ s.ctxDone = false ∧
      s' = { s with ctxDone := true } ∧ e = .interrupted := by
  simp only [step] at h
  split at h
  · simp at h
  · rename_i hc
    simp only [Bool.or_eq_true, not_or, Bool.not_eq_true, isSome_false_iff] at hc
    simp only [Option.some.injEq, Prod.mk.injEq] at h
    exact ⟨hc.1, hc.2, h.1.symm, h.2.symm⟩

theorem step_exit_inv (s s' : Sys) (e : Event) (h : step s .exit = some (s', e)) :
    s.exited = none ∧ s.collected = true ∧
      s' = { s with exited := some s.exitCode } ∧ e = .ended s.exitCode := by
  simp only [step] at h
  split at h
  · simp at h
  · rename_i hc
    simp only [Bool.or_eq_true, Bool.not_eq_true', not_or, Bool.not_eq_true,
      Bool.not_eq_false, isSome_false_iff] at hc
    simp only [Option.some.injEq, Prod.mk.injEq] at h
    exact ⟨hc.1, hc.2, h.1.symm, h.2.symm⟩

theorem step_abort_inv (s s' : Sys) (e : Event) (h : step s .abort = some (s', e)) :
    s.exited = none ∧ s.panicked = true ∧
      s' = { s with exited := some 2 } ∧ e = .ended 2 := by
  simp only [step] at h
  split at h
  · simp at h
  · rename_i hc
    simp only [Bool.or_eq_true, Bool.not_eq_true', not_or, Bool.not_eq_true,
      Bool.not_eq_false, isSome_false_iff] at hc
    simp only [Option.some.injEq, Prod.mk.injEq] at h
    exact ⟨hc.1, hc.2, h.1.symm, h.2.symm⟩

/-- The shape of a step of producer `j`. -/
theorem step_producer_shape (s s' : Sys) (j : Nat) (b : Bool) (e : Event)
    (h : step s (.producer j b) = some (s', e)) :
    s.exited = none ∧ ∃ p p' eff, s.producers[j]? = some p ∧
      parseFile.step b p = some (p', eff) ∧
      ((e = .prod j eff ∧ eff ≠ .sendOnClosed ∧ s'.producers = s.producers.set j p' ∧
          s'.chanClosed = s.chanClosed ∧ s'.collected = s.collected ∧
          (∀ code, eff = .send code → s.chanClosed = false ∧ s.collected = false) ∧
          (eff = .sawDone → s.ctxDone = true) ∧
          s'.wg = (if eff.finishes then s.wg - 1 else s.wg) ∧
          s'.ctxDone = (eff.cancels || s.ctxDone) ∧
          s'.exitCode = eff.exitCodeAfter s.exitCode ∧
          s'.mp = eff.mapAfter s.mp ∧
          s'.panicked = (s.panicked || decide (eff = .indexPanic)) ∧
          s'.exited = none) ∨
        (∃ code, eff = .send code ∧ e = .prod j .sendOnClosed ∧ s.chanClosed = true ∧
          s'.producers = s.producers.set j .crashed ∧ s'.chanClosed = s.chanClosed ∧
          s'.collected = s.collected ∧ s'.ctxDone = s.ctxDone ∧
          s'.exitCode = s.exitCode ∧ s'.mp = s.mp ∧ s'.exited = none)) := by
  obtain ⟨hp, p, p', eff, h1, h2, h3⟩ := step_producer_inv s s' j b e h
  refine ⟨hp, p, p', eff, h1, h2, ?_⟩
  cases eff with
  | silent =>
    simp only [applyEffect, Option.some.injEq, Prod.mk.injEq] at h3
    obtain ⟨rfl, rfl⟩ := h3
    left
    simp [hp, Effect.finishes, Effect.cancels, Effect.exitCodeAfter, Effect.mapAfter]
  | fail code =>
    simp only [applyEffect, Option.some.injEq, Prod.mk.injEq] at h3
    obtain ⟨rfl, rfl⟩ := h3
    left
    simp [hp, Effect.finishes, Effect.cancels, Effect.exitCodeAfter, Effect.mapAfter]
  | eof =>
    simp only [applyEffect, Option.some.injEq, Prod.mk.injEq] at h3
    obtain ⟨rfl, rfl⟩ := h3
    left
    simp [hp, Effect.finishes, Effect.cancels, Effect.exitCodeAfter, Effect.mapAfter]
  | send code =>
    simp only [applyEffect] at h3
    split at h3
    · rename_i hc
      simp only [Option.some.injEq, Prod.mk.injEq] at h3
      obtain ⟨rfl, rfl⟩ := h3
      right
      exact ⟨code, rfl, rfl, hc, rfl, rfl, rfl, rfl, rfl, rfl, hp⟩
    · rename_i hc
      split at h3
      · simp at h3
      · rename_i hcol
        simp only [Option.some.injEq, Prod.mk.injEq] at h3
        obtain ⟨rfl, rfl⟩ := h3
        left
        simp only [Bool.not_eq_true] at hc hcol
        simp [hp, hc, hcol, Effect.finishes, Effect.cancels, Effect.exitCodeAfter,
          Effect.mapAfter]
  | sawDone =>
    simp only [applyEffect] at h3
    split at h3
    · rename_i hc
      simp only [Option.some.injEq, Prod.mk.injEq] at h3
      obtain ⟨rfl, rfl⟩ := h3
      left
      simp [hp, hc, Effect.finishes, Effect.cancels, Effect.exitCodeAfter, Effect.mapAfter]
    · simp at h3
  | indexPanic =>
    simp only [applyEffect, Option.some.injEq, Prod.mk.injEq] at h3
    obtain ⟨rfl, rfl⟩ := h3
    left
    simp [hp, Effect.finishes, Effect.cancels, Effect.exitCodeAfter, Effect.mapAfter]
  | sendOnClosed => simp [applyEffect] at h3

/-- Every step of the program uses up some of the measure. -/
theorem measure_step (s s' : Sys) (l : Label) (e : Event) (h : step s l = some (s', e)) :
    s'.measure < s.measure := by
  cases l with
  | producer j b =>
    obtain ⟨hex, p, p', eff, h1, h2, h3⟩ := step_producer_shape s s' j b e h
    have hf := Producer.fuel_step b p p' eff h2
    rcases h3 with ⟨_, _, hprod, hcl, hco, _, _, _, hctx, _, _, _, hex'⟩ |
      ⟨code, _, _, _, hprod, hcl, hco, hctx, _, _, hex'⟩
    · have hs := sum_map_set Producer.fuel s.producers j p' p h1
      have hc : (if s'.ctxDone = true then 0 else 1) ≤ (if s.ctxDone = true then 0 else 1) := by
        rw [hctx]
        cases eff.cancels <;> cases s.ctxDone <;> simp
      simp only [Sys.measure, hprod, hcl, hco, hex, hex']
      omega
    · have hs := sum_map_set Producer.fuel s.producers j .crashed p h1
      have h0 : Producer.fuel .crashed = 0 := rfl
      simp only [Sys.measure, hprod, hcl, hco, hctx, hex, hex']
      omega
  | close =>
    obtain ⟨_, hc, _, rfl, _⟩ := step_close_inv s s' e h
    simp [Sys.measure, hc]
  | collect =>
    obtain ⟨_, hc, _, rfl, _⟩ := step_collect_inv s s' e h
    simp [Sys.measure, hc]
  | interrupt =>
    obtain ⟨_, hc, rfl, _⟩ := step_interrupt_inv s s' e h
    simp [Sys.measure, hc]
  | exit =>
    obtain ⟨hc, _, rfl, _⟩ := step_exit_inv s s' e h
    simp [Sys.measure, hc]
  | abort =>
    obtain ⟨hc, _, rfl, _⟩ := step_abort_inv s s' e h
    simp [Sys.measure, hc]

theorem all_finished_of_live_zero (ps : List Producer)
    (h : (ps.map Producer.live).sum = 0) : ∀ p ∈ ps, parseFile.step false p = none ∧
      p.pending = [] ∧ (p = .returned ∨ p = .crashed) := by
  intro p hp
  have h1 : ∀ x ∈ ps.map Producer.live, x = 0 := List.sum_eq_zero_iff.mp h
  have h2 := h1 (Producer.live p) (List.mem_map_of_mem _ hp)
  cases p with
  | spawned src => simp [Producer.live] at h2
  | reading rest count => simp [Producer.live] at h2
  | selecting code rest count => simp [Producer.live] at h2
  | returned => exact ⟨rfl, rfl, Or.inl rfl⟩
  | crashed => exact ⟨rfl, rfl, Or.inr rfl⟩

theorem step_none_of_finished (b : Bool) (p : Producer)
    (h : p = .returned ∨ p = .crashed) : parseFile.step b p = none := by
  rcases h with rfl | rfl <;> rfl

theorem live_step (b : Bool) (p p' : Producer) (eff : Effect)
    (h : parseFile.step b p = some (p', eff)) :
    p.live = 1 ∧ p'.live = (if eff.finishes then 0 else 1) := by
  cases p with
  | spawned src =>
    cases src with
    | none =>
      simp only [parseFile.step, Option.some.injEq, Prod.mk.injEq] at h
      rw [← h.1, ← h.2]
      simp [Producer.live, Effect.finishes]
    | some rows =>
      simp only [parseFile.step, Option.some.injEq, Prod.mk.injEq] at h
      rw [← h.1, ← h.2]
      simp [Producer.live, Effect.finishes]
  | reading rest count =>
    cases rest with
    | nil =>
      simp only [parseFile.step, Option.some.injEq, Prod.mk.injEq] at h
      rw [← h.1, ← h.2]
      simp [Producer.live, Effect.finishes]
    | cons r rest =>
      cases r with
      | parseError =>
        simp only [parseFile.step, Option.some.injEq, Prod.mk.injEq] at h
        rw [← h.1, ← h.2]
        simp [Producer.live, Effect.finishes]
      | record row =>
        simp only [parseFile.step] at h
        split at h
        · simp only [Option.some.injEq, Prod.mk.injEq] at h
          rw [← h.1, ← h.2]
          simp [Producer.live, Effect.finishes]
        · split at h
          · simp only [Option.some.injEq, Prod.mk.injEq] at h
            rw [← h.1, ← h.2]
            simp [Producer.live, Effect.finishes]
          · simp only [Option.some.injEq, Prod.mk.injEq] at h
            rw [← h.1, ← h.2]
            simp [Producer.live, Effect.finishes]
  | selecting code rest count =>
    simp only [parseFile.step] at h
    split at h
    · simp only [Option.some.injEq, Prod.mk.injEq] at h
      rw [← h.1, ← h.2]
      simp [Producer.live, Effect.finishes]
    · simp only [Option.some.injEq, Prod.mk.injEq] at h
      rw [← h.1, ← h.2]
      simp [Producer.live, Effect.finishes]
  | returned => simp [parseFile.step] at h
  | crashed => simp [parseFile.step] at h

/-- A step produces a crashed goroutine only together with a panic. -/
theorem crashed_step (b : Bool) (p p' : Producer) (eff : Effect)
    (h : parseFile.step b p = some (p', eff)) : p' = .crashed → eff = .indexPanic := by
  intro hc
  subst hc
  cases p with
  | spawned src =>
    cases src <;> simp [parseFile.step] at h
  | reading rest count =>
    cases rest with
    | nil => simp [parseFile.step] at h
    | cons r rest =>
      cases r with
      | parseError => simp [parseFile.step] at h
      | record row =>
        simp only [parseFile.step] at h
        split at h
        · simp at h
        · split at h
          · simp only [Option.some.injEq, Prod.mk.injEq] at h
            exact h.2.symm
          · simp at h
  | selecting code rest count =>
    simp only [parseFile.step] at h
    split at h <;> simp at h
  | returned => simp [parseFile.step] at h
  | crashed => simp [parseFile.step] at h

theorem getElem?_mem_of_some {α : Type} (l : List α) (i : Nat) (a : α)
    (h : l[i]? = some a) : a ∈ l := by
  obtain ⟨hi, rfl⟩ := List.getElem?_eq_some.mp h
  exact List.getElem_mem _

/-- No step is possible for a goroutine once the channel is closed. -/
theorem no_producer_when_closed (s : Sys) (hinv : Inv s) (hc : s.chanClosed = true)
    (j : Nat) (b : Bool) : step s (.producer j b) = none := by
  cases hstep : step s (.producer j b) with
  | none => rfl
  | some r =>
    obtain ⟨s', e⟩ := r
    obtain ⟨_, p, p', eff, h1, h2, _⟩ := step_producer_shape s s' j b e hstep
    have hwg := hinv.closed_wg hc
    rw [hinv.wg_eq] at hwg
    have hfin := (all_finished_of_live_zero _ hwg p (getElem?_mem_of_some _ _ _ h1)).2.2
    rw [step_none_of_finished b p hfin] at h2
    simp at h2

theorem inv_init (files : List FileSource) : Inv (Sys.init files) := by
  refine ⟨?_, ?_, ?_, ?_, ?_⟩
  · simp only [Sys.init, List.map_map]
    induction files with
    | nil => rfl
    | cons f rest ih =>
      simp only [List.length_cons, List.map_cons, List.sum_cons, Function.comp, Producer.live]
      simp only [Function.comp] at ih
      omega
  · simp [Sys.init]
  · simp [Sys.init]
  · simp [Sys.init]
  · simp [Sys.init]

/-- The invariant is kept by every step. -/
theorem inv_step (s s' : Sys) (l : Label) (e : Event) (hinv : Inv s)
    (h : step s l = some (s', e)) : Inv s' := by
  cases l with
  | producer j b =>
    have hopen : s.chanClosed = false := by
      cases hc : s.chanClosed with
      | false => rfl
      | true =>
        rw [no_producer_when_closed s hinv hc j b] at h
        simp at h
    obtain ⟨hex, p, p', eff, h1, h2, h3⟩ := step_producer_shape s s' j b e h
    rcases h3 with ⟨_, _, hprod, hcl, hco, _, _, hwg, _, _, _, hpn, hex'⟩ |
      ⟨code, _, _, hc, _⟩
    · obtain ⟨hl1, hl2⟩ := live_step b p p' eff h2
      have hs := sum_map_set Producer.live s.producers j p' p h1
      refine ⟨?_, ?_, ?_, ?_, ?_⟩
      · rw [hwg, hprod, hinv.wg_eq]
        cases hr : eff.finishes
        · simp only [hr, Bool.false_eq_true, if_false] at hl2 ⊢
          omega
        · simp only [hr, if_true] at hl2 ⊢
          omega
      · rw [hcl, hopen]
        simp
      · rw [hco, hcl]
        exact hinv.collected_closed
      · intro hp' hmem
        rw [hpn] at hp'
        simp only [Bool.or_eq_false_iff, decide_eq_false_iff_not] at hp'
        rw [hprod] at hmem
        rcases List.mem_or_eq_of_mem_set hmem with hm | hm
        · exact hinv.crashed_panicked hp'.1 hm
        · exact hp'.2 (crashed_step b p p' eff h2 hm.symm)
      · intro st hst
        rw [hex'] at hst
        simp at hst
    · rw [hopen] at hc
      simp at hc
  | close =>
    obtain ⟨hex, _, hwg, rfl, _⟩ := step_close_inv s s' e h
    refine ⟨hinv.wg_eq, fun _ => hwg, fun _ => rfl, hinv.crashed_panicked, ?_⟩
    intro st hst
    simp only [hex] at hst
    simp at hst
  | collect =>
    obtain ⟨hex, _, hc, rfl, _⟩ := step_collect_inv s s' e h
    refine ⟨hinv.wg_eq, hinv.closed_wg, fun _ => hc, hinv.crashed_panicked, ?_⟩
    intro st hst
    simp only [hex] at hst
    simp at hst
  | interrupt =>
    obtain ⟨hex, _, rfl, _⟩ := step_interrupt_inv s s' e h
    refine ⟨hinv.wg_eq, hinv.closed_wg, hinv.collected_closed, hinv.crashed_panicked, ?_⟩
    intro st hst
    simp only [hex] at hst
    simp at hst
  | exit =>
    obtain ⟨_, hcol, rfl, _⟩ := step_exit_inv s s' e h
    refine ⟨hinv.wg_eq, hinv.closed_wg, hinv.collected_closed, hinv.crashed_panicked, ?_⟩
    intro st hst
    simp only [Option.some.injEq] at hst
    exact Or.inr ⟨hcol, hst.symm⟩
  | abort =>
    obtain ⟨_, hpan, rfl, _⟩ := step_abort_inv s s' e h
    refine ⟨hinv.wg_eq, hinv.closed_wg, hinv.collected_closed, hinv.crashed_panicked, ?_⟩
    intro st hst
    simp only [Option.some.injEq] at hst
    exact Or.inl ⟨hpan, hst.symm⟩

/-! ## Lemmas on executions -/

theorem run_cons_inv (s s' : Sys) (l : Label) (ls : List Label) (es : List Event)
    (h : run s (l :: ls) = some (s', es)) :
    ∃ s1 e es1, step s l = some (s1, e) ∧ run s1 ls = some (s', es1) ∧ es = e :: es1 := by
  simp only [run] at h
  split at h
  · simp at h
  · rename_i s1 e hstep
    split at h
    · simp at h
    · rename_i s2 es1 hrun
      simp only [Option.some.injEq, Prod.mk.injEq] at h
      exact ⟨s1, e, es1, hstep, by rw [hrun, h.1], h.2.symm⟩

theorem run_nil_inv (s s' : Sys) (es : List Event) (h : run s [] = some (s', es)) :
    s' = s ∧ es = [] := by
  simp only [run, Option.some.injEq, Prod.mk.injEq] at h
  exact ⟨h.1.symm, h.2.symm⟩

theorem run_append (s : Sys) (l1 l2 : List Label) (s' : Sys) (es : List Event)
    (h : run s (l1 ++ l2) = some (s', es)) :
    ∃ s1 es1 es2, run s l1 = some (s1, es1) ∧ run s1 l2 = some (s', es2) ∧
      es = es1 ++ es2 := by
  induction l1 generalizing s es with
  | nil => exact ⟨s, [], es, rfl, h, rfl⟩
  | cons l rest ih =>
    obtain ⟨s1, e, es1, h1, h2, rfl⟩ := run_cons_inv s s' l (rest ++ l2) es h
    obtain ⟨s2, ea, eb, h3, h4, rfl⟩ := ih s1 es1 h2
    refine ⟨s2, e :: ea, eb, ?_, h4, rfl⟩
    simp only [run, h1, h3]

theorem sendsOf_cons (i : Nat) (e : Event) (es : List Event) :
    sendsOf i (e :: es) = e.sentBy i ++ sendsOf i es := by
  cases e with
  | prod j eff =>
    cases eff <;> simp [sendsOf, Event.sentBy]
    split <;> simp
  | closed => rfl
  | collected => rfl
  | interrupted => rfl
  | ended st => rfl

theorem received_cons (e : Event) (es : List Event) :
    received (e :: es) = e.handed ++ received es := by
  cases e with
  | prod j eff => cases eff <;> simp [received, Event.handed]
  | closed => rfl
  | collected => rfl
  | interrupted => rfl
  | ended st => rfl

theorem severities_cons (e : Event) (es : List Event) :
    severities (e :: es) = e.severity ++ severities es := by
  cases e with
  | prod j eff => cases eff <;> simp [severities, Event.severity]
  | closed => rfl
  | collected => rfl
  | interrupted => rfl
  | ended st => rfl

theorem inv_run (ls : List Label) (s s' : Sys) (es : List Event) (hinv : Inv s)
    (h : run s ls = some (s', es)) : Inv s' := by
  induction ls generalizing s es with
  | nil =>
    obtain ⟨rfl, _⟩ := run_nil_inv s s' es h
    exact hinv
  | cons l rest ih =>
    obtain ⟨s1, e, es1, h1, h2, _⟩ := run_cons_inv s s' l rest es h
    exact ih s1 es1 (inv_step s s1 l e hinv h1) h2

/-- Executions are bounded by the measure of their first state. -/
theorem measure_run (ls : List Label) (s s' : Sys) (es : List Event)
    (h : run s ls = some (s', es)) : ls.length + s'.measure ≤ s.measure := by
  induction ls generalizing s es with
  | nil =>
    obtain ⟨rfl, _⟩ := run_nil_inv s s' es h
    simp
  | cons l rest ih =>
    obtain ⟨s1, e, es1, h1, h2, _⟩ := run_cons_inv s s' l rest es h
    have := ih s1 es1 h2
    have := measure_step s s1 l e h1
    simp only [List.length_cons]
    omega

theorem length_producers_step (s s' : Sys) (l : Label) (e : Event)
    (h : step s l = some (s', e)) : s'.producers.length = s.producers.length := by
  cases l with
  | producer j b =>
    obtain ⟨_, p, p', eff, _, _, h3⟩ := step_producer_shape s s' j b e h
    rcases h3 with ⟨_, _, hprod, _⟩ | ⟨code, _, _, _, hprod, _⟩
    · rw [hprod]
      simp
    · rw [hprod]
      simp
  | close =>
    obtain ⟨_, _, _, rfl, _⟩ := step_close_inv s s' e h
    rfl
  | collect =>
    obtain ⟨_, _, _, rfl, _⟩ := step_collect_inv s s' e h
    rfl
  | interrupt =>
    obtain ⟨_, _, rfl, _⟩ := step_interrupt_inv s s' e h
    rfl
  | exit =>
    obtain ⟨_, _, rfl, _⟩ := step_exit_inv s s' e h
    rfl
  | abort =>
    obtain ⟨_, _, rfl, _⟩ := step_abort_inv s s' e h
    rfl

/-- The map after a step is the map of before with the value handed over counted. -/
theorem mp_step (s s' : Sys) (l : Label) (e : Event) (h : step s l = some (s', e)) :
    s'.mp = e.handed.foldl countCode s.mp := by
  cases l with
  | producer j b =>
    obtain ⟨_, p, p', eff, _, _, h3⟩ := step_producer_shape s s' j b e h
    rcases h3 with ⟨rfl, _, _, _, _, _, _, _, _, _, hmp, _⟩ |
      ⟨code, _, rfl, _, _, _, _, _, _, hmp, _⟩
    · rw [hmp]
      cases eff <;> simp [Effect.mapAfter, Event.handed]
    · rw [hmp]
      simp [Event.handed]
  | close =>
    obtain ⟨_, _, _, rfl, rfl⟩ := step_close_inv s s' e h
    rfl
  | collect =>
    obtain ⟨_, _, _, rfl, rfl⟩ := step_collect_inv s s' e h
    rfl
  | interrupt =>
    obtain ⟨_, _, rfl, rfl⟩ := step_interrupt_inv s s' e h
    rfl
  | exit =>
    obtain ⟨_, _, rfl, rfl⟩ := step_exit_inv s s' e h
    rfl
  | abort =>
    obtain ⟨_, _, rfl, rfl⟩ := step_abort_inv s s' e h
    rfl

theorem mp_run (ls : List Label) (s s' : Sys) (es : List Event)
    (h : run s ls = some (s', es)) : s'.mp = (received es).foldl countCode s.mp := by
  induction ls generalizing s es with
  | nil =>
    obtain ⟨rfl, rfl⟩ := run_nil_inv s s' es h
    rfl
  | cons l rest ih =>
    obtain ⟨s1, e, es1, h1, h2, rfl⟩ := run_cons_inv s s' l rest es h
    rw [ih s1 es1 h2, mp_step s s1 l e h1, received_cons, List.foldl_append]

/-- The variable `exitCode` after a step holds the value assigned by the step, if
any, and else its value of before. -/
theorem exitCode_step (s s' : Sys) (l : Label) (e : Event) (h : step s l = some (s', e)) :
    s'.exitCode = e.severity.getLast?.getD s.exitCode := by
  cases l with
  | producer j b =>
    obtain ⟨_, p, p', eff, _, _, h3⟩ := step_producer_shape s s' j b e h
    rcases h3 with ⟨rfl, _, _, _, _, _, _, _, _, hex, _, _⟩ |
      ⟨code, _, rfl, _, _, _, _, _, hex, _⟩
    · rw [hex]
      cases eff <;> simp [Effect.exitCodeAfter, Event.severity]
    · rw [hex]
      simp [Event.severity]
  | close =>
    obtain ⟨_, _, _, rfl, rfl⟩ := step_close_inv s s' e h
    rfl
  | collect =>
    obtain ⟨_, _, _, rfl, rfl⟩ := step_collect_inv s s' e h
    rfl
  | interrupt =>
    obtain ⟨_, _, rfl, rfl⟩ := step_interrupt_inv s s' e h
    rfl
  | exit =>
    obtain ⟨_, _, rfl, rfl⟩ := step_exit_inv s s' e h
    rfl
  | abort =>
    obtain ⟨_, _, rfl, rfl⟩ := step_abort_inv s s' e h
    rfl

theorem getLast?_getD_append (as bs : List Nat) (d : Nat) :
    (as ++ bs).getLast?.getD d = bs.getLast?.getD (as.getLast?.getD d) := by
  cases bs with
  | nil => simp
  | cons b rest =>
    rw [List.getLast?_append]
    simp [List.getLast?_cons_cons, List.getLast?_eq_getLast (b :: rest) (by simp)]

theorem exitCode_run (ls : List Label) (s s' : Sys) (es : List Event)
    (h : run s ls = some (s', es)) :
    s'.exitCode = (severities es).getLast?.getD s.exitCode := by
  induction ls generalizing s es with
  | nil =>
    obtain ⟨rfl, rfl⟩ := run_nil_inv s s' es h
    rfl
  | cons l rest ih =>
    obtain ⟨s1, e, es1, h1, h2, rfl⟩ := run_cons_inv s s' l rest es h
    rw [ih s1 es1 h2, exitCode_step s s1 l e h1, severities_cons, getLast?_getD_append]

theorem pendingAt_set (s : Sys) (j i : Nat) (p p' : Producer) (ps : List Producer)
    (hps : ps = s.producers.set j p') (h1 : s.producers[j]? = some p) :
    (match ps[i]? with | some q => q.pending | none => []) =
      if j = i then p'.pending else s.pendingAt i := by
  subst hps
  have hj : j < s.producers.length := (List.getElem?_eq_some.mp h1).1
  by_cases hji : j = i
  · subst hji
    simp [List.getElem?_set_self, hj]
  · simp [List.getElem?_set_ne hji, hji, Sys.pendingAt]

/-- What producer `i` hands over in a step is the head of what it has still to send,
and the step leaves it at most the rest. -/
theorem pending_step_le (s s' : Sys) (l : Label) (e : Event) (i : Nat)
    (h : step s l = some (s', e)) : e.sentBy i ++ s'.pendingAt i <+: s.pendingAt i := by
  cases l with
  | producer j b =>
    obtain ⟨_, p, p', eff, h1, h2, h3⟩ := step_producer_shape s s' j b e h
    have hle := Producer.sent_pending_le b p p' eff h2
    rcases h3 with ⟨rfl, _, hprod, _⟩ | ⟨code, _, rfl, _, hprod, _⟩
    · have hpa := pendingAt_set s j i p p' s'.producers hprod h1
      by_cases hji : j = i
      · subst hji
        have hs : s.pendingAt j = p.pending := by simp [Sys.pendingAt, h1]
        have hs' : s'.pendingAt j = p'.pending := by
          simp only [Sys.pendingAt]
          rw [hpa]
          simp
        rw [hs, hs']
        cases eff <;> simpa [Event.sentBy, Effect.sent] using hle
      · have hs' : s'.pendingAt i = s.pendingAt i := by
          simp only [Sys.pendingAt]
          rw [hpa]
          simp [hji, Sys.pendingAt]
        rw [hs']
        cases eff <;> simp [Event.sentBy, hji]
    · have hpa := pendingAt_set s j i p .crashed s'.producers hprod h1
      by_cases hji : j = i
      · subst hji
        have hs2 : s'.pendingAt j = [] := by
          simp only [Sys.pendingAt]
          rw [hpa]
          simp [Producer.pending]
        rw [hs2]
        simp [Event.sentBy]
      · have hs2 : s'.pendingAt i = s.pendingAt i := by
          simp only [Sys.pendingAt]
          rw [hpa]
          simp [hji, Sys.pendingAt]
        rw [hs2]
        simp [Event.sentBy]
  | close =>
    obtain ⟨_, _, _, rfl, rfl⟩ := step_close_inv s s' e h
    simp [Event.sentBy, Sys.pendingAt]
  | collect =>
    obtain ⟨_, _, _, rfl, rfl⟩ := step_collect_inv s s' e h
    simp [Event.sentBy, Sys.pendingAt]
  | interrupt =>
    obtain ⟨_, _, rfl, rfl⟩ := step_interrupt_inv s s' e h
    simp [Event.sentBy, Sys.pendingAt]
  | exit =>
    obtain ⟨_, _, rfl, rfl⟩ := step_exit_inv s s' e h
    simp [Event.sentBy, Sys.pendingAt]
  | abort =>
    obtain ⟨_, _, rfl, rfl⟩ := step_abort_inv s s' e h
    simp [Event.sentBy, Sys.pendingAt]

/-- Unless producer `i` takes the case `<-ctx.Done()` in the step, it keeps all it has
still to send, less what it hands over. -/
theorem pending_step_eq (s s' : Sys) (l : Label) (e : Event) (i : Nat) (hinv : Inv s)
    (h : step s l = some (s', e)) (hd : e ≠ .prod i .sawDone) :
    e.sentBy i ++ s'.pendingAt i = s.pendingAt i := by
  cases l with
  | producer j b =>
    have hopen : s.chanClosed = false := by
      cases hc : s.chanClosed with
      | false => rfl
      | true =>
        rw [no_producer_when_closed s hinv hc j b] at h
        simp at h
    obtain ⟨_, p, p', eff, h1, h2, h3⟩ := step_producer_shape s s' j b e h
    rcases h3 with ⟨rfl, _, hprod, _⟩ | ⟨code, _, _, hc, _⟩
    · have hpa := pendingAt_set s j i p p' s'.producers hprod h1
      by_cases hji : j = i
      · subst hji
        have hne : eff ≠ .sawDone := fun he => hd (by rw [he])
        have heq := Producer.sent_pending_eq b p p' eff h2 hne
        have hs : s.pendingAt j = p.pending := by simp [Sys.pendingAt, h1]
        have hs' : s'.pendingAt j = p'.pending := by
          simp only [Sys.pendingAt]
          rw [hpa]
          simp
        rw [hs, hs']
        cases eff <;> simpa [Event.sentBy, Effect.sent] using heq
      · have hs' : s'.pendingAt i = s.pendingAt i := by
          simp only [Sys.pendingAt]
          rw [hpa]
          simp [hji, Sys.pendingAt]
        rw [hs']
        cases eff <;> simp [Event.sentBy, hji]
    · rw [hopen] at hc
      simp at hc
  | close =>
    obtain ⟨_, _, _, rfl, rfl⟩ := step_close_inv s s' e h
    simp [Event.sentBy, Sys.pendingAt]
  | collect =>
    obtain ⟨_, _, _, rfl, rfl⟩ := step_collect_inv s s' e h
    simp [Event.sentBy, Sys.pendingAt]
  | interrupt =>
    obtain ⟨_, _, rfl, rfl⟩ := step_interrupt_inv s s' e h
    simp [Event.sentBy, Sys.pendingAt]
  | exit =>
    obtain ⟨_, _, rfl, rfl⟩ := step_exit_inv s s' e h
    simp [Event.sentBy, Sys.pendingAt]
  | abort =>
    obtain ⟨_, _, rfl, rfl⟩ := step_abort_inv s s' e h
    simp [Event.sentBy, Sys.pendingAt]

/-- What producer `i` hands over in an execution is an initial segment of what it had
to send. -/
theorem pending_run_le (ls : List Label) (s s' : Sys) (es : List Event) (i : Nat)
    (h : run s ls = some (s', es)) : sendsOf i es ++ s'.pendingAt i <+: s.pendingAt i := by
  induction ls generalizing s es with
  | nil =>
    obtain ⟨rfl, rfl⟩ := run_nil_inv s s' es h
    simp [sendsOf]
  | cons l rest ih =>
    obtain ⟨s1, e, es1, h1, h2, rfl⟩ := run_cons_inv s s' l rest es h
    have ha := ih s1 es1 h2
    have hb := pending_step_le s s1 l e i h1
    rw [sendsOf_cons, List.append_assoc]
    exact ((List.prefix_append_right_inj _).mpr ha).trans hb

/-- In an execution in which producer `i` never takes the case `<-ctx.Done()`, it
hands over all it had to send, less what it still has to send at the end. -/
theorem pending_run_eq (ls : List Label) (s s' : Sys) (es : List Event) (i : Nat)
    (hinv : Inv s) (h : run s ls = some (s', es)) (hd : Event.prod i .sawDone ∉ es) :
    sendsOf i es ++ s'.pendingAt i = s.pendingAt i := by
  induction ls generalizing s es with
  | nil =>
    obtain ⟨rfl, rfl⟩ := run_nil_inv s s' es h
    simp [sendsOf]
  | cons l rest ih =>
    obtain ⟨s1, e, es1, h1, h2, rfl⟩ := run_cons_inv s s' l rest es h
    simp only [List.mem_cons, not_or] at hd
    have ha := ih s1 es1 (inv_step s s1 l e hinv h1) h2 hd.2
    have hb := pending_step_eq s s1 l e i hinv h1 (fun he => hd.1 he.symm)
    rw [sendsOf_cons, List.append_assoc, ha, hb]

/-- Once `mapCodes` has returned no goroutine has anything left to send. -/
theorem pendingAt_collected (s : Sys) (hinv : Inv s) (hc : s.collected = true) (i : Nat) :
    s.pendingAt i = [] := by
  have hwg := hinv.closed_wg (hinv.collected_closed hc)
  rw [hinv.wg_eq] at hwg
  have hall := all_finished_of_live_zero _ hwg
  simp only [Sys.pendingAt]
  cases hp : s.producers[i]? with
  | none => rfl
  | some p => exact (hall p (getElem?_mem_of_some _ _ _ hp)).2.1

theorem pendingAt_init (files : List FileSource) (i : Nat) :
    (Sys.init files).pendingAt i =
      match files[i]? with
      | some (some rows) => pendingRows rows 0
      | _ => [] := by
  simp only [Sys.pendingAt, Sys.init, List.getElem?_map]
  cases hf : files[i]? with
  | none => rfl
  | some f => cases f <;> rfl

theorem Producer.safe_kept (b : Bool) (p p' : Producer) (eff : Effect) (hs : p.Safe)
    (h : parseFile.step b p = some (p', eff)) : p'.Safe ∧ eff ≠ .indexPanic := by
  cases p with
  | spawned src =>
    cases src with
    | none =>
      simp only [parseFile.step, Option.some.injEq, Prod.mk.injEq] at h
      rw [← h.1, ← h.2]
      simp [Producer.Safe]
    | some rows =>
      simp only [parseFile.step, Option.some.injEq, Prod.mk.injEq] at h
      rw [← h.1, ← h.2]
      exact ⟨hs, by simp⟩
  | reading rest count =>
    cases rest with
    | nil =>
      simp only [parseFile.step, Option.some.injEq, Prod.mk.injEq] at h
      rw [← h.1, ← h.2]
      simp [Producer.Safe]
    | cons r rest =>
      have hrest : ∀ row, ReadResult.record row ∈ rest → 2 ≤ row.length :=
        fun row hrow => hs row (List.mem_cons_of_mem _ hrow)
      cases r with
      | parseError =>
        simp only [parseFile.step, Option.some.injEq, Prod.mk.injEq] at h
        rw [← h.1, ← h.2]
        simp [Producer.Safe]
      | record row =>
        have hrow : 1 < row.length := hs row (List.mem_cons_self _ _)
        simp only [parseFile.step] at h
        split at h
        · simp only [Option.some.injEq, Prod.mk.injEq] at h
          rw [← h.1, ← h.2]
          exact ⟨hrest, by simp⟩
        · split at h
          · rename_i hnone
            rw [List.getElem?_eq_getElem hrow] at hnone
            simp at hnone
          · simp only [Option.some.injEq, Prod.mk.injEq] at h
            rw [← h.1, ← h.2]
            exact ⟨hrest, by simp⟩
  | selecting code rest count =>
    simp only [parseFile.step] at h
    split at h
    · simp only [Option.some.injEq, Prod.mk.injEq] at h
      rw [← h.1, ← h.2]
      simp [Producer.Safe]
    · simp only [Option.some.injEq, Prod.mk.injEq] at h
      rw [← h.1, ← h.2]
      exact ⟨hs, by simp⟩
  | returned => simp [parseFile.step] at h
  | crashed => simp [parseFile.step] at h

theorem Producer.clean_step (b : Bool) (p p' : Producer) (eff : Effect) (hs : p.Clean)
    (h : parseFile.step b p = some (p', eff)) : p'.Clean ∧ eff.cancels = false := by
  cases p with
  | spawned src =>
    cases src with
    | none => exact absurd hs (by simp [Producer.Clean])
    | some rows =>
      simp only [parseFile.step, Option.some.injEq, Prod.mk.injEq] at h
      rw [← h.1, ← h.2]
      exact ⟨hs, rfl⟩
  | reading rest count =>
    cases rest with
    | nil =>
      simp only [parseFile.step, Option.some.injEq, Prod.mk.injEq] at h
      rw [← h.1, ← h.2]
      simp [Producer.Clean, Effect.cancels]
    | cons r rest =>
      simp only [Producer.Clean, List.mem_cons, not_or] at hs
      cases r with
      | parseError => exact absurd rfl hs.1
      | record row =>
        simp only [parseFile.step] at h
        split at h
        · simp only [Option.some.injEq, Prod.mk.injEq] at h
          rw [← h.1, ← h.2]
          exact ⟨hs.2, rfl⟩
        · split at h
          · simp only [Option.some.injEq, Prod.mk.injEq] at h
            rw [← h.1, ← h.2]
            simp [Producer.Clean, Effect.cancels]
          · simp only [Option.some.injEq, Prod.mk.injEq] at h
            rw [← h.1, ← h.2]
            exact ⟨hs.2, rfl⟩
  | selecting code rest count =>
    simp only [parseFile.step] at h
    split at h
    · simp only [Option.some.injEq, Prod.mk.injEq] at h
      rw [← h.1, ← h.2]
      simp [Producer.Clean, Effect.cancels]
    · simp only [Option.some.injEq, Prod.mk.injEq] at h
      rw [← h.1, ← h.2]
      exact ⟨hs, rfl⟩
  | returned => simp [parseFile.step] at h
  | crashed => simp [parseFile.step] at h

/-- No goroutine sends on the closed channel. -/
theorem no_sendOnClosed_step (s s' : Sys) (l : Label) (e : Event) (hinv : Inv s)
    (h : step s l = some (s', e)) (i : Nat) : e ≠ .prod i .sendOnClosed := by
  cases l with
  | producer j b =>
    have hopen : s.chanClosed = false := by
      cases hc : s.chanClosed with
      | false => rfl
      | true =>
        rw [no_producer_when_closed s hinv hc j b] at h
        simp at h
    obtain ⟨_, p, p', eff, h1, h2, h3⟩ := step_producer_shape s s' j b e h
    rcases h3 with ⟨rfl, hne, _⟩ | ⟨code, _, _, hc, _⟩
    · intro he
      simp only [Event.prod.injEq] at he
      exact hne he.2
    · rw [hopen] at hc
      simp at hc
  | close =>
    obtain ⟨_, _, _, _, rfl⟩ := step_close_inv s s' e h
    simp
  | collect =>
    obtain ⟨_, _, _, _, rfl⟩ := step_collect_inv s s' e h
    simp
  | interrupt =>
    obtain ⟨_, _, _, rfl⟩ := step_interrupt_inv s s' e h
    simp
  | exit =>
    obtain ⟨_, _, _, rfl⟩ := step_exit_inv s s' e h
    simp
  | abort =>
    obtain ⟨_, _, _, rfl⟩ := step_abort_inv s s' e h
    simp

theorem no_sendOnClosed_run (ls : List Label) (s s' : Sys) (es : List Event) (hinv : Inv s)
    (h : run s ls = some (s', es)) (i : Nat) : Event.prod i .sendOnClosed ∉ es := by
  induction ls generalizing s es with
  | nil =>
    obtain ⟨_, rfl⟩ := run_nil_inv s s' es h
    simp
  | cons l rest ih =>
    obtain ⟨s1, e, es1, h1, h2, rfl⟩ := run_cons_inv s s' l rest es h
    simp only [List.mem_cons, not_or]
    exact ⟨fun he => no_sendOnClosed_step s s1 l e hinv h1 i he.symm,
      ih s1 es1 (inv_step s s1 l e hinv h1) h2⟩

/-- When no data row is short, no step panics. -/
theorem safe_step (s s' : Sys) (l : Label) (e : Event) (hinv : Inv s)
    (hs : ∀ p ∈ s.producers, p.Safe) (hp : s.panicked = false)
    (h : step s l = some (s', e)) :
    (∀ p ∈ s'.producers, p.Safe) ∧ s'.panicked = false := by
  cases l with
  | producer j b =>
    have hopen : s.chanClosed = false := by
      cases hc : s.chanClosed with
      | false => rfl
      | true =>
        rw [no_producer_when_closed s hinv hc j b] at h
        simp at h
    obtain ⟨_, p, p', eff, h1, h2, h3⟩ := step_producer_shape s s' j b e h
    obtain ⟨hp', hne⟩ := Producer.safe_kept b p p' eff
      (hs p (getElem?_mem_of_some _ _ _ h1)) h2
    rcases h3 with ⟨_, _, hprod, _, _, _, _, _, _, _, _, hpan, _⟩ | ⟨code, _, _, hc, _⟩
    · refine ⟨?_, by simp [hpan, hne, hp]⟩
      intro q hq
      rw [hprod] at hq
      rcases List.mem_or_eq_of_mem_set hq with hm | hm
      · exact hs q hm
      · rw [hm]
        exact hp'
    · rw [hopen] at hc
      simp at hc
  | close =>
    obtain ⟨_, _, _, rfl, _⟩ := step_close_inv s s' e h
    exact ⟨hs, hp⟩
  | collect =>
    obtain ⟨_, _, _, rfl, _⟩ := step_collect_inv s s' e h
    exact ⟨hs, hp⟩
  | interrupt =>
    obtain ⟨_, _, rfl, _⟩ := step_interrupt_inv s s' e h
    exact ⟨hs, hp⟩
  | exit =>
    obtain ⟨_, _, rfl, _⟩ := step_exit_inv s s' e h
    exact ⟨hs, hp⟩
  | abort =>
    obtain ⟨_, _, rfl, _⟩ := step_abort_inv s s' e h
    exact ⟨hs, hp⟩

theorem safe_run (ls : List Label) (s s' : Sys) (es : List Event) (hinv : Inv s)
    (hs : ∀ p ∈ s.producers, p.Safe) (hp : s.panicked = false)
    (h : run s ls = some (s', es)) : s'.panicked = false := by
  induction ls generalizing s es with
  | nil =>
    obtain ⟨rfl, _⟩ := run_nil_inv s s' es h
    exact hp
  | cons l rest ih =>
    obtain ⟨s1, e, es1, h1, h2, _⟩ := run_cons_inv s s' l rest es h
    obtain ⟨hs1, hp1⟩ := safe_step s s1 l e hinv hs hp h1
    exact ih s1 es1 (inv_step s s1 l e hinv h1) hs1 hp1 h2

/-- When every file opens and decodes and no interrupt arrives, a step neither
cancels the context nor assigns `exitCode`, and no goroutine sees `ctx.Done()`. -/
theorem quiet_step (s s' : Sys) (l : Label) (e : Event)
    (hs : ∀ p ∈ s.producers, p.Clean) (hctx : s.ctxDone = false) (hl : l ≠ .interrupt)
    (h : step s l = some (s', e)) :
    (∀ p ∈ s'.producers, p.Clean) ∧ s'.ctxDone = false ∧ e.severity = [] ∧
      ∀ i, e ≠ .prod i .sawDone := by
  cases l with
  | producer j b =>
    obtain ⟨_, p, p', eff, h1, h2, h3⟩ := step_producer_shape s s' j b e h
    obtain ⟨hp', hne⟩ := Producer.clean_step b p p' eff
      (hs p (getElem?_mem_of_some _ _ _ h1)) h2
    rcases h3 with ⟨rfl, _, hprod, _, _, _, hsd, _, hc, _⟩ |
      ⟨code, _, rfl, _, hprod, _, _, hc, _⟩
    · refine ⟨?_, by simp [hc, hne, hctx], ?_, ?_⟩
      · intro q hq
        rw [hprod] at hq
        rcases List.mem_or_eq_of_mem_set hq with hm | hm
        · exact hs q hm
        · rw [hm]
          exact hp'
      · cases eff <;> simp [Event.severity, Effect.cancels] at hne ⊢
      · intro i he
        simp only [Event.prod.injEq] at he
        have := hsd he.2
        rw [hctx] at this
        simp at this
    · refine ⟨?_, by rw [hc, hctx], by simp [Event.severity], by simp⟩
      intro q hq
      rw [hprod] at hq
      rcases List.mem_or_eq_of_mem_set hq with hm | hm
      · exact hs q hm
      · rw [hm]
        simp [Producer.Clean]
  | close =>
    obtain ⟨_, _, _, rfl, rfl⟩ := step_close_inv s s' e h
    exact ⟨hs, hctx, rfl, by simp⟩
  | collect =>
    obtain ⟨_, _, _, rfl, rfl⟩ := step_collect_inv s s' e h
    exact ⟨hs, hctx, rfl, by simp⟩
  | interrupt => exact absurd rfl hl
  | exit =>
    obtain ⟨_, _, rfl, rfl⟩ := step_exit_inv s s' e h
    exact ⟨hs, hctx, rfl, by simp⟩
  | abort =>
    obtain ⟨_, _, rfl, rfl⟩ := step_abort_inv s s' e h
    exact ⟨hs, hctx, rfl, by simp⟩

theorem quiet_run (ls : List Label) (s s' : Sys) (es : List Event)
    (hs : ∀ p ∈ s.producers, p.Clean) (hctx : s.ctxDone = false) (hl : Label.interrupt ∉ ls)
    (h : run s ls = some (s', es)) :
    s'.ctxDone = false ∧ severities es = [] ∧ ∀ i, Event.prod i .sawDone ∉ es := by
  induction ls generalizing s es with
  | nil =>
    obtain ⟨rfl, rfl⟩ := run_nil_inv s s' es h
    exact ⟨hctx, rfl, by simp⟩
  | cons l rest ih =>
    obtain ⟨s1, e, es1, h1, h2, rfl⟩ := run_cons_inv s s' l rest es h
    simp only [List.mem_cons, not_or] at hl
    obtain ⟨a1, a2, a3, a4⟩ := quiet_step s s1 l e hs hctx (fun he => hl.1 he.symm) h1
    obtain ⟨b1, b2, b3⟩ := ih s1 es1 a1 a2 hl.2 h2
    refine ⟨b1, by rw [severities_cons, a3, b2]; rfl, ?_⟩
    intro i
    simp only [List.mem_cons, not_or]
    exact ⟨fun he => a4 i he.symm, b3 i⟩

/-- A goroutine that has neither returned nor crashed can take a step without
choosing the case `<-ctx.Done()`. -/
theorem parseFile.step_enabled (p : Producer) (h1 : p ≠ .returned) (h2 : p ≠ .crashed) :
    ∃ p' eff, parseFile.step false p = some (p', eff) ∧ eff ≠ .sawDone ∧ eff ≠ .sendOnClosed := by
  cases p with
  | spawned src =>
    cases src with
    | none => exact ⟨_, _, rfl, by simp, by simp⟩
    | some rows => exact ⟨_, _, rfl, by simp, by simp⟩
  | reading rest count =>
    cases rest with
    | nil => exact ⟨_, _, rfl, by simp, by simp⟩
    | cons r rest =>
      cases r with
      | parseError => exact ⟨_, _, rfl, by simp, by simp⟩
      | record row =>
        by_cases hc : count + 1 = 1
        · exact ⟨.reading rest (count + 1), .silent,
            by simp only [parseFile.step, hc, if_true], by simp, by simp⟩
        · cases hrow : row[1]? with
          | none =>
            exact ⟨.crashed, .indexPanic,
              by simp only [parseFile.step, hc, if_false, hrow], by simp, by simp⟩
          | some code =>
            exact ⟨.selecting code rest (count + 1), .silent,
              by simp only [parseFile.step, hc, if_false, hrow], by simp, by simp⟩
  | selecting code rest count =>
    exact ⟨.reading rest count, .send code, by simp [parseFile.step], by simp, by simp⟩
  | returned => exact absurd rfl h1
  | crashed => exact absurd rfl h2

theorem applyEffect_enabled (s s1 : Sys) (j : Nat) (eff : Effect)
    (hc : s.chanClosed = false) (hcol : s.collected = false) (h1 : eff ≠ .sawDone)
    (h2 : eff ≠ .sendOnClosed) : (applyEffect s s1 j eff).isSome = true := by
  cases eff with
  | silent => rfl
  | fail code => rfl
  | eof => rfl
  | send code => simp [applyEffect, hc, hcol]
  | sawDone => exact absurd rfl h1
  | indexPanic => rfl
  | sendOnClosed => exact absurd rfl h2

theorem exists_live_of_sum_ne_zero (ps : List Producer)
    (h : (ps.map Producer.live).sum ≠ 0) :
    ∃ (j : Nat) (p : Producer), ps[j]? = some p ∧ p ≠ Producer.returned ∧
      p ≠ Producer.crashed := by
  induction ps with
  | nil => simp at h
  | cons q rest ih =>
    by_cases hq : q.live = 0
    · simp only [List.map_cons, List.sum_cons, hq, zero_add] at h
      obtain ⟨j, p, hj, hp⟩ := ih h
      exact ⟨j + 1, p, by simpa using hj, hp⟩
    · refine ⟨0, q, by simp, ?_, ?_⟩
      · rintro rfl
        exact hq rfl
      · rintro rfl
        exact hq rfl

/-- Progress: as long as the process has not ended, some goroutine can move, without
any interrupt. -/
theorem progress (s : Sys) (hinv : Inv s) (hex : s.exited = none) :
    ∃ l, l ≠ Label.interrupt ∧ (step s l).isSome = true := by
  cases hcol : s.collected with
  | true => exact ⟨.exit, by simp, by simp [step, hex, hcol]⟩
  | false =>
    cases hc : s.chanClosed with
    | true => exact ⟨.collect, by simp, by simp [step, hex, hcol, hc]⟩
    | false =>
      by_cases hwg : s.wg = 0
      · exact ⟨.close, by simp, by simp [step, hex, hc, hwg]⟩
      · rw [hinv.wg_eq] at hwg
        obtain ⟨j, p, hj, hne, hnc⟩ := exists_live_of_sum_ne_zero _ hwg
        obtain ⟨p', eff, hstep, e1, e2⟩ := parseFile.step_enabled p hne hnc
        refine ⟨.producer j false, by simp, ?_⟩
        simp only [step, hex, Option.isSome_none, Bool.false_eq_true, if_false, hj, hstep]
        exact applyEffect_enabled _ _ _ _ hc hcol e1 e2

/-- The process ends only after a panic or after `mapCodes` has returned. -/
theorem exited_none (s : Sys) (hinv : Inv s) (hp : s.panicked = false)
    (hcol : s.collected = false) : s.exited = none := by
  cases hex : s.exited with
  | none => rfl
  | some st =>
    rcases hinv.exited_status st hex with ⟨h, _⟩ | ⟨h, _⟩
    · rw [hp] at h
      simp at h
    · rw [hcol] at h
      simp at h

/-- In a step in which no goroutine takes the case `<-ctx.Done()`, the value handed
over leaves what the goroutines have still to send. -/
theorem count_step (s s' : Sys) (l : Label) (e : Event) (v : String) (hinv : Inv s)
    (h : step s l = some (s', e)) (hd : ∀ i, e ≠ .prod i .sawDone) :
    e.handed.count v + (s'.producers.map (fun p => p.pending.count v)).sum =
      (s.producers.map (fun p => p.pending.count v)).sum := by
  cases l with
  | producer j b =>
    have hopen : s.chanClosed = false := by
      cases hc : s.chanClosed with
      | false => rfl
      | true =>
        rw [no_producer_when_closed s hinv hc j b] at h
        simp at h
    obtain ⟨_, p, p', eff, h1, h2, h3⟩ := step_producer_shape s s' j b e h
    rcases h3 with ⟨rfl, _, hprod, _⟩ | ⟨code, _, _, hc, _⟩
    · have hne : eff ≠ .sawDone := fun he => hd j (by rw [he])
      have heq := Producer.sent_pending_eq b p p' eff h2 hne
      have hs := sum_map_set (fun p => p.pending.count v) s.producers j p' p h1
      have hcount : eff.sent.count v + p'.pending.count v = p.pending.count v := by
        rw [← heq, List.count_append]
      have hh : (Event.prod j eff).handed = eff.sent := by cases eff <;> rfl
      rw [hh, hprod]
      simp only at hs
      omega
    · rw [hopen] at hc
      simp at hc
  | close =>
    obtain ⟨_, _, _, rfl, rfl⟩ := step_close_inv s s' e h
    simp [Event.handed]
  | collect =>
    obtain ⟨_, _, _, rfl, rfl⟩ := step_collect_inv s s' e h
    simp [Event.handed]
  | interrupt =>
    obtain ⟨_, _, rfl, rfl⟩ := step_interrupt_inv s s' e h
    simp [Event.handed]
  | exit =>
    obtain ⟨_, _, rfl, rfl⟩ := step_exit_inv s s' e h
    simp [Event.handed]
  | abort =>
    obtain ⟨_, _, rfl, rfl⟩ := step_abort_inv s s' e h
    simp [Event.handed]

theorem count_run (ls : List Label) (s s' : Sys) (es : List Event) (v : String)
    (hinv : Inv s) (h : run s ls = some (s', es)) (hd : ∀ i, Event.prod i .sawDone ∉ es) :
    (received es).count v + (s'.producers.map (fun p => p.pending.count v)).sum =
      (s.producers.map (fun p => p.pending.count v)).sum := by
  induction ls generalizing s es with
  | nil =>
    obtain ⟨rfl, rfl⟩ := run_nil_inv s s' es h
    simp [received]
  | cons l rest ih =>
    obtain ⟨s1, e, es1, h1, h2, rfl⟩ := run_cons_inv s s' l rest es h
    have hd1 : ∀ i, e ≠ .prod i .sawDone := fun i he => hd i (by simp [he])
    have hd2 : ∀ i, Event.prod i .sawDone ∉ es1 := fun i he => hd i (by simp [he])
    have ha := ih s1 es1 (inv_step s s1 l e hinv h1) h2 hd2
    have hb := count_step s s1 l e v hinv h1 hd1
    rw [received_cons, List.count_append]
    omega

theorem pending_sum_collected (s : Sys) (hinv : Inv s) (hc : s.collected = true)
    (v : String) : (s.producers.map (fun p => p.pending.count v)).sum = 0 := by
  have hwg := hinv.closed_wg (hinv.collected_closed hc)
  rw [hinv.wg_eq] at hwg
  have hall := all_finished_of_live_zero _ hwg
  apply List.sum_eq_zero
  intro x hx
  obtain ⟨p, hp, rfl⟩ := List.mem_map.mp hx
  simp only [(hall p hp).2.1, List.count_nil]

/-- The events of producers carry an index below the number of files. -/
theorem index_step (s s' : Sys) (l : Label) (j : Nat) (eff : Effect)
    (h : step s l = some (s', .prod j eff)) : j < s.producers.length := by
  cases l with
  | producer k b =>
    obtain ⟨_, p, p', eff2, h1, _, h3⟩ := step_producer_shape s s' k b _ h
    have hk : k < s.producers.length := (List.getElem?_eq_some.mp h1).1
    rcases h3 with ⟨he, _⟩ | ⟨code, _, he, _⟩
    · simp only [Event.prod.injEq] at he
      omega
    · simp only [Event.prod.injEq] at he
      omega
  | close =>
    obtain ⟨_, _, _, _, he⟩ := step_close_inv s s' _ h
    simp at he
  | collect =>
    obtain ⟨_, _, _, _, he⟩ := step_collect_inv s s' _ h
    simp at he
  | interrupt =>
    obtain ⟨_, _, _, he⟩ := step_interrupt_inv s s' _ h
    simp at he
  | exit =>
    obtain ⟨_, _, _, he⟩ := step_exit_inv s s' _ h
    simp at he
  | abort =>
    obtain ⟨_, _, _, he⟩ := step_abort_inv s s' _ h
    simp at he

theorem sum_sentBy (n : Nat) (e : Event) (v : String)
    (h : ∀ j eff, e = .prod j eff → j < n) :
    Finset.sum (Finset.range n) (fun i => (e.sentBy i).count v) = e.handed.count v := by
  cases e with
  | prod j eff =>
    have hj := h j eff rfl
    cases eff with
    | send code =>
      simp only [Event.sentBy, Event.handed]
      have : ∀ i, (if j = i then [code] else []).count v
          = if j = i then [code].count v else 0 := by
        intro i
        split <;> simp
      simp only [this]
      rw [Finset.sum_ite_eq]
      simp [hj]
    | silent => simp [Event.sentBy, Event.handed]
    | fail code => simp [Event.sentBy, Event.handed]
    | eof => simp [Event.sentBy, Event.handed]
    | sawDone => simp [Event.sentBy, Event.handed]
    | indexPanic => simp [Event.sentBy, Event.handed]
    | sendOnClosed => simp [Event.sentBy, Event.handed]
  | closed => simp [Event.sentBy, Event.handed]
  | collected => simp [Event.sentBy, Event.handed]
  | interrupted => simp [Event.sentBy, Event.handed]
  | ended st => simp [Event.sentBy, Event.handed]

/-- The values received are those handed over by the producers, taken together. -/
theorem received_count_run (ls : List Label) (s s' : Sys) (es : List Event) (v : String)
    (h : run s ls = some (s', es)) :
    (received es).count v =
      Finset.sum (Finset.range s.producers.length) (fun i => (sendsOf i es).count v) := by
  induction ls generalizing s es with
  | nil =>
    obtain ⟨rfl, rfl⟩ := run_nil_inv s s' es h
    simp [received, sendsOf]
  | cons l rest ih =>
    obtain ⟨s1, e, es1, h1, h2, rfl⟩ := run_cons_inv s s' l rest es h
    have ha := ih s1 es1 h2
    rw [length_producers_step s s1 l e h1] at ha
    have hb := sum_sentBy s.producers.length e v (by
      intro j eff he
      subst he
      exact index_step s s1 l j eff h1)
    simp only [received_cons, sendsOf_cons, List.count_append, Finset.sum_add_distrib]
    rw [ha, hb]

/-! ## Lemmas on whole runs of `parseFile` and of the program -/

theorem parseFile.run_eof (n count : Nat) :
    parseFile.run (n + 1) (.reading [] count) = (.returned, [.eof]) := by
  simp [parseFile.run, parseFile.step, parseFile.run_returned]

theorem parseFile.run_parseError (n count : Nat) (later : List ReadResult) :
    parseFile.run (n + 1) (.reading (.parseError :: later) count) =
      (.returned, [.fail 2]) := by
  simp [parseFile.run, parseFile.step, parseFile.run_returned]

theorem parseFile.run_short (n count : Nat) (row : List String)
    (rest : List ReadResult) (hcount : 1 ≤ count) (hrow : row[1]? = none) :
    parseFile.run (n + 1) (.reading (.record row :: rest) count) =
      (.crashed, [.indexPanic]) := by
  have hne : ¬ (count + 1 = 1) := by omega
  simp [parseFile.run, parseFile.step, parseFile.run_crashed, hne, hrow]

/-- A file with a header and well-formed data rows: the goroutine opens the file, skips
the header, sends the index-1 field of every data row and goes on with the rest. -/
theorem parseFile.run_file (hdr : List String) (data : List (List String))
    (codes : List String) (hc : data.map (fun r => r[1]?) = codes.map some)
    (rest : List ReadResult) (n : Nat) :
    parseFile.run (2 * data.length + n + 1 + 1)
        (.spawned (some (.record hdr :: (data.map ReadResult.record ++ rest)))) =
      ((parseFile.run n (.reading rest (1 + data.length))).1,
        .silent :: .silent :: (dataEffects codes ++
          (parseFile.run n (.reading rest (1 + data.length))).2)) := by
  simp only [parseFile.run, parseFile.step, Nat.zero_add, if_true]
  rw [parseFile.run_data data codes hc rest 1 n (by omega)]

theorem filterMap_codes (data : List (List String)) (codes : List String)
    (hc : data.map (fun r => r[1]?) = codes.map some) :
    data.filterMap (fun r => r[1]?) = codes := by
  induction data generalizing codes with
  | nil =>
    cases codes with
    | nil => rfl
    | cons c cs => simp at hc
  | cons r data ih =>
    cases codes with
    | nil => simp at hc
    | cons c cs =>
      simp only [List.map_cons, List.cons.injEq] at hc
      simp [List.filterMap_cons, hc.1, ih cs hc.2]

theorem count_filterMap_codes (data : List (List String)) (v : String) :
    (data.filterMap (fun r => r[1]?)).count v =
      (data.filter (fun r => decide (r[1]? = some v))).length := by
  induction data with
  | nil => rfl
  | cons r data ih =>
    cases hr : r[1]? with
    | none => simp [List.filterMap_cons, List.filter_cons, hr, ih]
    | some c =>
      by_cases hv : c = v
      · simp [List.filterMap_cons, List.filter_cons, hr, ih, hv]
      · simp [List.filterMap_cons, List.filter_cons, hr, ih, hv, List.count_cons]

/-- The values that the goroutine of a well-formed file has to send are the index-1
fields of the rows after the header. -/
theorem pending_cleanFile (rows : List (List String)) (h : ∀ r ∈ rows, 2 ≤ r.length) :
    (pendingRows (rows.map ReadResult.record) 0).map some = rows.tail.map (fun r => r[1]?) := by
  cases rows with
  | nil => rfl
  | cons hdr data =>
    obtain ⟨codes, hc⟩ := codes_of_two_fields data
      (fun r hr => h r (List.mem_cons_of_mem _ hr))
    have := pendingRows_data data codes hc [] 1 (by omega)
    simp only [List.append_nil] at this
    simp only [List.map_cons, pendingRows, Nat.zero_add, if_true, List.tail_cons, this,
      List.append_nil, hc]

theorem count_pending_cleanFile (rows : List (List String)) (h : ∀ r ∈ rows, 2 ≤ r.length)
    (v : String) : (pendingRows (rows.map ReadResult.record) 0).count v = rowCount rows v := by
  cases rows with
  | nil => rfl
  | cons hdr data =>
    obtain ⟨codes, hc⟩ := codes_of_two_fields data
      (fun r hr => h r (List.mem_cons_of_mem _ hr))
    have := pendingRows_data data codes hc [] 1 (by omega)
    simp only [List.append_nil] at this
    simp only [List.map_cons, pendingRows, Nat.zero_add, if_true, this, List.append_nil,
      rowCount, List.tail_cons]
    exact count_codes data codes hc v

theorem pending_sum_cleanFiles (rowss : List (List (List String)))
    (h : ∀ rows ∈ rowss, ∀ r ∈ rows, 2 ≤ r.length) (v : String) :
    ((Sys.init (cleanFiles rowss)).producers.map (fun p => p.pending.count v)).sum =
      totalCount rowss v := by
  simp only [Sys.init, cleanFiles, totalCount, List.map_map]
  congr 1
  apply List.map_congr_left
  intro rows hrows
  simp only [Function.comp, Producer.pending]
  exact count_pending_cleanFile rows (h rows hrows) v

theorem clean_cleanFiles (rowss : List (List (List String))) :
    ∀ p ∈ (Sys.init (cleanFiles rowss)).producers, p.Clean := by
  intro p hp
  simp only [Sys.init, cleanFiles, List.map_map, List.mem_map, Function.comp] at hp
  obtain ⟨rows, _, rfl⟩ := hp
  simp [Producer.Clean]

theorem safe_init (files : List FileSource)
    (h : ∀ f ∈ files, f = none ∨
      ∃ rows : List (List String), f = some (rows.map ReadResult.record) ∧
        ∀ r ∈ rows, 2 ≤ r.length) :
    ∀ p ∈ (Sys.init files).producers, p.Safe := by
  intro p hp
  simp only [Sys.init, List.mem_map] at hp
  obtain ⟨f, hf, rfl⟩ := hp
  rcases h f hf with rfl | ⟨rows, rfl, hrows⟩
  · simp [Producer.Safe]
  · simp only [Producer.Safe, List.mem_map]
    rintro row ⟨r, hr, he⟩
    simp only [ReadResult.record.injEq] at he
    subst he
    exact hrows r hr

theorem safe_cleanFiles (rowss : List (List (List String)))
    (h : ∀ rows ∈ rowss, ∀ r ∈ rows, 2 ≤ r.length) :
    ∀ p ∈ (Sys.init (cleanFiles rowss)).producers, p.Safe := by
  apply safe_init
  intro f hf
  simp only [cleanFiles, List.mem_map] at hf
  obtain ⟨rows, hrows, rfl⟩ := hf
  exact Or.inr ⟨rows, rfl, h rows hrows⟩

/-- The map of the program is the one `mapCodes` builds from the values received. -/
theorem mp_init_run (files : List FileSource) (ls : List Label) (s : Sys) (es : List Event)
    (h : run (Sys.init files) ls = some (s, es)) : s.mp = mapCodes (received es) := by
  rw [mp_run ls _ s es h]
  rfl

/-- When the values received have the same counts as the list `l`, the final map has
the content of `mapCodes l`. -/
theorem lookup_of_count_eq (xs l : List String) (h : ∀ v, xs.count v = l.count v)
    (v : String) : (mapCodes xs).lookup v = (mapCodes l).lookup v := by
  rw [lookup_mapCodes, lookup_mapCodes, h v]
  have : v ∈ xs ↔ v ∈ l := by
    rw [← List.count_pos_iff, ← List.count_pos_iff, h v]
  simp only [this]

/-- After a scan without cancellation `mapCodes` has received every value that the
goroutines had to send. -/
theorem quiet_final_count (files : List FileSource) (ls : List Label) (s : Sys)
    (es : List Event) (hclean : ∀ p ∈ (Sys.init files).producers, p.Clean)
    (hq : Label.interrupt ∉ ls) (h : run (Sys.init files) ls = some (s, es))
    (hcol : s.collected = true) (v : String) :
    (received es).count v =
      ((Sys.init files).producers.map (fun p => p.pending.count v)).sum := by
  obtain ⟨_, _, hnd⟩ := quiet_run ls _ s es hclean rfl hq h
  have hc := count_run ls _ s es v (inv_init files) h hnd
  have hz := pending_sum_collected s (inv_run ls _ s es (inv_init files) h) hcol v
  omega

/-- The number of close events of an execution is the change of the channel's state:
the channel is closed at most once and never reopened. -/
theorem closed_count_run (ls : List Label) (s s' : Sys) (es : List Event)
    (h : run s ls = some (s', es)) :
    es.count Event.closed + (if s.chanClosed then 1 else 0) =
      (if s'.chanClosed then 1 else 0) := by
  induction ls generalizing s es with
  | nil =>
    obtain ⟨rfl, rfl⟩ := run_nil_inv s s' es h
    simp
  | cons l rest ih =>
    obtain ⟨s1, e, es1, h1, h2, rfl⟩ := run_cons_inv s s' l rest es h
    have ha := ih s1 es1 h2
    have hb : [e].count Event.closed + (if s.chanClosed then 1 else 0) =
        (if s1.chanClosed then 1 else 0) := by
      cases l with
      | producer j b =>
        obtain ⟨_, p, p', eff, _, _, h3⟩ := step_producer_shape s s1 j b e h1
        rcases h3 with ⟨rfl, _, _, hcl, _⟩ | ⟨code, _, rfl, _, _, hcl, _⟩
        · rw [hcl]
          simp
        · rw [hcl]
          simp
      | close =>
        obtain ⟨_, hc, _, rfl, rfl⟩ := step_close_inv s s1 e h1
        simp [hc]
      | collect =>
        obtain ⟨_, _, _, rfl, rfl⟩ := step_collect_inv s s1 e h1
        simp
      | interrupt =>
        obtain ⟨_, _, rfl, rfl⟩ := step_interrupt_inv s s1 e h1
        simp
      | exit =>
        obtain ⟨_, _, rfl, rfl⟩ := step_exit_inv s s1 e h1
        simp
      | abort =>
        obtain ⟨_, _, rfl, rfl⟩ := step_abort_inv s s1 e h1
        simp
    have hcons : (e :: es1).count Event.closed
        = [e].count Event.closed + es1.count Event.closed := by
      rw [← List.count_append]
      rfl
    rw [hcons]
    omega

/-- The assignments to `exitCode` are those of the two failure paths of `parseFile`:
1 when `os.Open` fails, 2 when a read fails. -/
theorem Producer.fail_step (b : Bool) (p p' : Producer) (c : Nat)
    (h : parseFile.step b p = some (p', .fail c)) :
    (p = .spawned none ∧ c = 1) ∨
      (∃ rest count, p = .reading (.parseError :: rest) count ∧ c = 2) := by
  cases p with
  | spawned src =>
    cases src with
    | none =>
      simp only [parseFile.step, Option.some.injEq, Prod.mk.injEq, Effect.fail.injEq] at h
      exact Or.inl ⟨rfl, h.2.symm⟩
    | some rows => simp [parseFile.step] at h
  | reading rest count =>
    cases rest with
    | nil => simp [parseFile.step] at h
    | cons r rest =>
      cases r with
      | parseError =>
        simp only [parseFile.step, Option.some.injEq, Prod.mk.injEq, Effect.fail.injEq] at h
        exact Or.inr ⟨rest, count, rfl, h.2.symm⟩
      | record row =>
        simp only [parseFile.step] at h
        split at h
        · simp at h
        · split at h <;> simp at h
  | selecting code rest count =>
    simp only [parseFile.step] at h
    split at h <;> simp at h
  | returned => simp [parseFile.step] at h
  | crashed => simp [parseFile.step] at h

theorem severities_run (ls : List Label) (s s' : Sys) (es : List Event)
    (h : run s ls = some (s', es)) : ∀ c ∈ severities es, c = 1 ∨ c = 2 := by
  induction ls generalizing s es with
  | nil =>
    obtain ⟨_, rfl⟩ := run_nil_inv s s' es h
    simp [severities]
  | cons l rest ih =>
    obtain ⟨s1, e, es1, h1, h2, rfl⟩ := run_cons_inv s s' l rest es h
    intro c hc
    rw [severities_cons, List.mem_append] at hc
    rcases hc with hc | hc
    · cases l with
      | producer j b =>
        obtain ⟨_, p, p', eff, _, hstep, h3⟩ := step_producer_shape s s1 j b e h1
        rcases h3 with ⟨rfl, _⟩ | ⟨code, _, rfl, _⟩
        · cases eff with
          | fail code =>
            simp only [Event.severity, List.mem_singleton] at hc
            subst hc
            rcases Producer.fail_step b p p' c hstep with ⟨_, hx⟩ | ⟨_, _, _, hx⟩
            · exact Or.inl hx
            · exact Or.inr hx
          | silent => simp [Event.severity] at hc
          | eof => simp [Event.severity] at hc
          | send code => simp [Event.severity] at hc
          | sawDone => simp [Event.severity] at hc
          | indexPanic => simp [Event.severity] at hc
          | sendOnClosed => simp [Event.severity] at hc
        · simp [Event.severity] at hc
      | close =>
        obtain ⟨_, _, _, _, rfl⟩ := step_close_inv s s1 e h1
        simp [Event.severity] at hc
      | collect =>
        obtain ⟨_, _, _, _, rfl⟩ := step_collect_inv s s1 e h1
        simp [Event.severity] at hc
      | interrupt =>
        obtain ⟨_, _, _, rfl⟩ := step_interrupt_inv s s1 e h1
        simp [Event.severity] at hc
      | exit =>
        obtain ⟨_, _, _, rfl⟩ := step_exit_inv s s1 e h1
        simp [Event.severity] at hc
      | abort =>
        obtain ⟨_, _, _, rfl⟩ := step_abort_inv s s1 e h1
        simp [Event.severity] at hc
    · exact ih s1 es1 h2 c hc

/-- A process that has ended takes no further step. -/
theorem step_exited (s : Sys) (l : Label) (h : s.exited.isSome = true) : step s l = none := by
  cases l <;> simp [step, h]

theorem oneColumn_step (s s' : Sys) (l : Label) (e : Event) (hJ : OneColumnStates s)
    (h : step s l = some (s', e)) : OneColumnStates s' := by
  cases l with
  | producer j b =>
    obtain ⟨_, p, p', eff, h1, h2, h3⟩ := step_producer_shape s s' j b e h
    have key : ∀ q, s.producers = [q] → j = 0 ∧ p = q := by
      intro q hq
      rw [hq] at h1
      cases j with
      | zero => exact ⟨rfl, by simpa using h1.symm⟩
      | succ j => simp at h1
    rcases h3 with ⟨_, _, hprod, _⟩ | ⟨code, hsend, _, _, hprod, _⟩
    · rcases hJ with hp | hp | hp | hp
      · obtain ⟨rfl, rfl⟩ := key _ hp
        simp only [oneColumnFile, parseFile.step, Option.some.injEq, Prod.mk.injEq] at h2
        obtain ⟨rfl, rfl⟩ := h2
        right; left
        rw [hprod, hp]
        rfl
      · obtain ⟨rfl, rfl⟩ := key _ hp
        simp only [parseFile.step, Nat.zero_add, if_true, Option.some.injEq,
          Prod.mk.injEq] at h2
        obtain ⟨rfl, rfl⟩ := h2
        right; right; left
        rw [hprod, hp]
        rfl
      · obtain ⟨rfl, rfl⟩ := key _ hp
        simp [parseFile.step] at h2
        obtain ⟨rfl, rfl⟩ := h2
        right; right; right
        rw [hprod, hp]
        rfl
      · obtain ⟨rfl, rfl⟩ := key _ hp
        simp [parseFile.step] at h2
    · right; right; right
      rcases hJ with hp | hp | hp | hp <;> rw [hprod, hp] <;>
        obtain ⟨rfl, _⟩ := key _ hp <;> rfl
  | close =>
    obtain ⟨_, _, _, rfl, _⟩ := step_close_inv s s' e h
    exact hJ
  | collect =>
    obtain ⟨_, _, _, rfl, _⟩ := step_collect_inv s s' e h
    exact hJ
  | interrupt =>
    obtain ⟨_, _, rfl, _⟩ := step_interrupt_inv s s' e h
    exact hJ
  | exit =>
    obtain ⟨_, _, rfl, _⟩ := step_exit_inv s s' e h
    exact hJ
  | abort =>
    obtain ⟨_, _, rfl, _⟩ := step_abort_inv s s' e h
    exact hJ

theorem oneColumn_run (ls : List Label) (s s' : Sys) (es : List Event)
    (hJ : OneColumnStates s) (h : run s ls = some (s', es)) : OneColumnStates s' := by
  induction ls generalizing s es with
  | nil =>
    obtain ⟨rfl, _⟩ := run_nil_inv s s' es h
    exact hJ
  | cons l rest ih =>
    obtain ⟨s1, e, es1, h1, h2, _⟩ := run_cons_inv s s' l rest es h
    exact ih s1 es1 (oneColumn_step s s1 l e hJ h1) h2

theorem oneColumn_init : OneColumnStates (Sys.init [oneColumnFile]) := Or.inl rfl

/-- In the scan of the one-column file alone `parseFile` never returns; the counter
of the `WaitGroup` reaches zero only through the deferred `wg.Done()` of its panic,
so the channel is closed, and `mapCodes` returns, only after the panic. -/
theorem oneColumn_never_returns (sched : List Label) (s : Sys) (es : List Event)
    (h : run (Sys.init [oneColumnFile]) sched = some (s, es)) :
    Producer.returned ∉ s.producers ∧ (s.chanClosed = true → s.panicked = true) ∧
      (s.wg = 0 → s.producers = [.crashed]) := by
  have hJ := oneColumn_run sched _ s es oneColumn_init h
  have hinv := inv_run sched _ s es (inv_init _) h
  have hnot : Producer.returned ∉ s.producers := by
    rcases hJ with hp | hp | hp | hp <;> rw [hp] <;> simp
  have hwg : s.wg = 0 → s.producers = [.crashed] := by
    intro h0
    rw [hinv.wg_eq] at h0
    rcases hJ with hp | hp | hp | hp
    · rw [hp] at h0
      simp [Producer.live] at h0
    · rw [hp] at h0
      simp [Producer.live] at h0
    · rw [hp] at h0
      simp [Producer.live] at h0
    · exact hp
  refine ⟨hnot, ?_, hwg⟩
  intro hc
  have hcr := hwg (hinv.closed_wg hc)
  cases hp : s.panicked with
  | true => rfl
  | false =>
    have := hinv.crashed_panicked hp
    rw [hcr] at this
    simp at this

/-- The close-after-join protocol of `main`, in every execution: the counter of the
`WaitGroup` is the number of goroutines whose deferred `wg.Done()` has not run; the
channel is closed at most once, at a moment when the counter is zero and every
`parseFile` has returned or panicked; no goroutine sends on the closed channel;
and as long as the process has not ended the program moves on, within a bounded
number of steps, so that the channel is closed exactly once and `mapCodes` returns
in every execution that the runtime does not end after a panic. -/
theorem close_after_join (files : List FileSource) (sched : List Label) (s : Sys)
    (es : List Event) (hrun : run (Sys.init files) sched = some (s, es)) :
    Inv s ∧ (∀ i, Event.prod i .sendOnClosed ∉ es) ∧ es.count Event.closed ≤ 1 ∧
    (s.collected = true → es.count Event.closed = 1) ∧
    (∀ l1 l2, sched = l1 ++ Label.close :: l2 →
      ∃ s1 es1, run (Sys.init files) l1 = some (s1, es1) ∧ s1.wg = 0 ∧
        ∀ p ∈ s1.producers, p = Producer.returned ∨ p = Producer.crashed) ∧
    (s.exited = none → ∃ l, l ≠ Label.interrupt ∧ (step s l).isSome = true) ∧
    (s.panicked = false → s.collected = false → s.exited = none) ∧
    sched.length + s.measure ≤ (Sys.init files).measure := by
  have hinv0 := inv_init files
  have hinv := inv_run sched _ s es hinv0 hrun
  have hcount := closed_count_run sched _ s es hrun
  have h0 : (Sys.init files).chanClosed = false := rfl
  rw [h0] at hcount
  simp only [Bool.false_eq_true, if_false, Nat.add_zero] at hcount
  refine ⟨hinv, no_sendOnClosed_run sched _ s es hinv0 hrun, ?_, ?_, ?_, progress s hinv,
    exited_none s hinv, measure_run sched _ s es hrun⟩
  · rw [hcount]
    split <;> omega
  · intro hcol
    rw [hinv.collected_closed hcol] at hcount
    simpa using hcount
  · intro l1 l2 hs
    subst hs
    obtain ⟨s1, es1, es2, h1, h2, _⟩ := run_append _ l1 (Label.close :: l2) s es hrun
    obtain ⟨s2, e, es3, h3, _, _⟩ := run_cons_inv s1 s Label.close l2 es2 h2
    obtain ⟨_, _, hwg, _, _⟩ := step_close_inv s1 s2 e h3
    have hinv1 := inv_run l1 _ s1 es1 hinv0 h1
    refine ⟨s1, es1, h1, hwg, ?_⟩
    rw [hinv1.wg_eq] at hwg
    exact fun p hp => (all_finished_of_live_zero _ hwg p hp).2.2

/-! ## The claims -/

/-- C7: for every finite sequence `xs` of values received before the channel is
closed, `mapCodes` returns a map whose entry for a string `v` is the number of
occurrences of `v` in `xs` when `v` occurs in `xs`, and which has no entry for `v`
otherwise; each further value received adds one to its entry, starting from 1; the
map has one entry per key; on the empty sequence it is the empty map. -/
theorem mapCodes_counts_occurrences (xs : List String) :
    (∀ v, (mapCodes xs).lookup v = if v ∈ xs then some (xs.count v) else none) ∧
    (∀ v, v ∈ (mapCodes xs).keys ↔ v ∈ xs) ∧
    (∀ v, mapCodes (xs ++ [v]) = countCode (mapCodes xs) v ∧
      (mapCodes (xs ++ [v])).lookup v = some (xs.count v + 1)) ∧
    (mapCodes xs).WF ∧
    mapCodes [] = GoMap.empty := by
  refine ⟨lookup_mapCodes xs, ?_, ?_, wf_mapCodes xs, rfl⟩
  · intro v
    rw [mem_keys_iff_lookup, lookup_mapCodes]
    by_cases h : v ∈ xs <;> simp [h]
  · intro v
    refine ⟨by simp [mapCodes, List.foldl_append], ?_⟩
    rw [lookup_mapCodes]
    simp

/-- C8, as stated, fails: two executions of the scan of the same two files, one that
cannot be opened and a valid one holding the code `A` twice, end with different
maps.  In the first the valid file's goroutine takes the case `<-ctx.Done()` at its
first `select` and the map is empty; in the second it hands over one `A` first. -/
theorem rerun_gives_other_map :
    (run (Sys.init [none, some [.record ["id", "code"], .record ["1", "A"], .record ["2", "A"]]])
      [.producer 0 false, .producer 1 false, .producer 1 false, .producer 1 false,
        .producer 1 true, .close, .collect, .exit]).map
      (fun r => (r.1.collected, r.1.panicked, r.1.mp.lookup "A")) = some (true, false, none) ∧
    (run (Sys.init [none, some [.record ["id", "code"], .record ["1", "A"], .record ["2", "A"]]])
      [.producer 0 false, .producer 1 false, .producer 1 false, .producer 1 false,
        .producer 1 false, .producer 1 false, .producer 1 true, .close, .collect, .exit]).map
      (fun r => (r.1.collected, r.1.panicked, r.1.mp.lookup "A")) =
        some (true, false, some 1) := by
  decide

/-- C8, amended: the frequency map does not depend on the order in which the values
arrive: when `ys` is a permutation of `xs`, the maps `mapCodes xs` and `mapCodes ys`
are equal as maps, that is, every key has the same entry in both and they hold the
same entries (a Go map has no order); so two executions of the scan in which
`mapCodes` receives `xs` and `ys` end with the same map.  When every file opens and
decodes without error and no interrupt arrives, two executions of the scan of the
same files that reach the report receive the same values up to order and have the
same map, whatever the interleaving; and when moreover every row has at least two
fields, every such execution goes on, without panic and within a bounded number of
steps, until `mapCodes` has returned. -/
theorem mapCodes_perm (xs ys : List String) (h : xs.Perm ys) :
    (∀ v, (mapCodes xs).lookup v = (mapCodes ys).lookup v) ∧
    (mapCodes xs).entries.Perm (mapCodes ys).entries ∧
    (∀ (files : List FileSource) (sched1 sched2 : List Label) (s1 s2 : Sys)
      (es1 es2 : List Event),
      run (Sys.init files) sched1 = some (s1, es1) →
      run (Sys.init files) sched2 = some (s2, es2) →
      received es1 = xs → received es2 = ys →
      (∀ v, s1.mp.lookup v = s2.mp.lookup v) ∧ s1.mp.entries.Perm s2.mp.entries) ∧
    (∀ (rowss : List (List (List String))) (sched1 sched2 : List Label) (s1 s2 : Sys)
      (es1 es2 : List Event),
      Label.interrupt ∉ sched1 → Label.interrupt ∉ sched2 →
      run (Sys.init (cleanFiles rowss)) sched1 = some (s1, es1) →
      run (Sys.init (cleanFiles rowss)) sched2 = some (s2, es2) →
      (s1.collected = true → s2.collected = true →
        (received es1).Perm (received es2) ∧
        (∀ v, s1.mp.lookup v = s2.mp.lookup v) ∧ s1.mp.entries.Perm s2.mp.entries) ∧
      ((∀ rows ∈ rowss, ∀ r ∈ rows, 2 ≤ r.length) →
        s1.panicked = false ∧
        sched1.length + s1.measure ≤ (Sys.init (cleanFiles rowss)).measure ∧
        (s1.collected = false →
          ∃ l, l ≠ Label.interrupt ∧ (step s1 l).isSome = true))) := by
  have key : ∀ as bs : List String, (∀ v, as.count v = bs.count v) →
      (∀ v, (mapCodes as).lookup v = (mapCodes bs).lookup v) ∧
      (mapCodes as).entries.Perm (mapCodes bs).entries := by
    intro as bs hc
    have hl := lookup_of_count_eq as bs hc
    exact ⟨hl, entries_perm_of_lookup_eq _ _ (wf_mapCodes as) (wf_mapCodes bs) hl⟩
  obtain ⟨hl, hp⟩ := key xs ys (fun v => h.count_eq v)
  refine ⟨hl, hp, ?_, ?_⟩
  · intro files sched1 sched2 s1 s2 es1 es2 h1 h2 e1 e2
    rw [mp_init_run files sched1 s1 es1 h1, mp_init_run files sched2 s2 es2 h2, e1, e2]
    exact ⟨hl, hp⟩
  · intro rowss sched1 sched2 s1 s2 es1 es2 q1 q2 h1 h2
    constructor
    · intro c1 c2
      have hc : ∀ v, (received es1).count v = (received es2).count v := by
        intro v
        rw [quiet_final_count _ sched1 s1 es1 (clean_cleanFiles rowss) q1 h1 c1 v,
          quiet_final_count _ sched2 s2 es2 (clean_cleanFiles rowss) q2 h2 c2 v]
      rw [mp_init_run _ sched1 s1 es1 h1, mp_init_run _ sched2 s2 es2 h2]
      exact ⟨List.perm_iff_count.mpr hc, key _ _ hc⟩
    · intro hrows
      have hinv0 := inv_init (cleanFiles rowss)
      have hinv := inv_run sched1 _ s1 es1 hinv0 h1
      have hpan := safe_run sched1 _ s1 es1 hinv0 (safe_cleanFiles rowss hrows) rfl h1
      exact ⟨hpan, measure_run sched1 _ s1 es1 h1,
        fun hcol => progress s1 hinv (exited_none s1 hinv hpan hcol)⟩

/-- Witness of C8 amended on two orders of arrival of the same three values. -/
theorem mapCodes_perm_witness :
    (["a", "b", "a"].Perm ["b", "a", "a"]) ∧
    (∀ v, (mapCodes ["a", "b", "a"]).lookup v = (mapCodes ["b", "a", "a"]).lookup v) ∧
    (mapCodes ["a", "b", "a"]).entries.Perm (mapCodes ["b", "a", "a"]).entries :=
  ⟨by decide, (mapCodes_perm ["a", "b", "a"] ["b", "a", "a"] (by decide)).1,
    (mapCodes_perm ["a", "b", "a"] ["b", "a", "a"] (by decide)).2.1⟩

/-- C6: a file that opens and decodes cleanly to the rows `rows`, each of at least
two fields, scanned by `parseFile` with the context never cancelled: with enough
steps the goroutine returns, without assigning `exitCode`, after having sent exactly
the index-1 fields of the rows after the first, in row order; the first row is
dropped whatever it holds, and nothing is sent when there is at most one row. -/
theorem parseFile_emits_data_rows (rows : List (List String))
    (hrows : ∀ r ∈ rows, 2 ≤ r.length) (fuel : Nat) (hfuel : 2 * rows.length + 2 ≤ fuel) :
    (parseFile.run fuel (.spawned (some (rows.map ReadResult.record)))).1 = .returned ∧
    (emitted (parseFile.run fuel (.spawned (some (rows.map ReadResult.record)))).2).map
        some = rows.tail.map (fun r => r[1]?) ∧
    (emitted (parseFile.run fuel (.spawned (some (rows.map ReadResult.record)))).2).length
      = rows.length - 1 ∧
    recorded (parseFile.run fuel (.spawned (some (rows.map ReadResult.record)))).2 = [] ∧
    (rows.length ≤ 1 →
      emitted (parseFile.run fuel (.spawned (some (rows.map ReadResult.record)))).2 = [])
    := by
  cases rows with
  | nil =>
    obtain ⟨n, rfl⟩ : ∃ n, fuel = n + 1 + 1 := ⟨fuel - 2, by simp at hfuel; omega⟩
    simp [parseFile.run, parseFile.step, parseFile.run_returned, emitted, recorded]
  | cons hdr data =>
    obtain ⟨codes, hc⟩ := codes_of_two_fields data
      (fun r hr => hrows r (List.mem_cons_of_mem _ hr))
    obtain ⟨n, rfl⟩ : ∃ n, fuel = 2 * data.length + (n + 1) + 1 + 1 :=
      ⟨fuel - (2 * data.length + 3), by simp only [List.length_cons] at hfuel; omega⟩
    have hrun := parseFile.run_file hdr data codes hc [] (n + 1)
    simp only [List.append_nil] at hrun
    have hlen : codes.length = data.length := by
      have := congrArg List.length hc
      simpa using this.symm
    simp only [List.map_cons]
    rw [hrun]
    simp only [parseFile.run_eof, emitted, emitted_append,
      emitted_dataEffects, recorded, recorded_append, recorded_dataEffects, List.append_nil,
      List.tail_cons, hc, List.length_cons, hlen, true_and]
    refine ⟨by omega, ?_⟩
    intro hle
    have : data.length = 0 := by omega
    rw [← hlen] at this
    exact List.length_eq_zero.mp this

/-- Witness of C6 on a file of a header and two data rows. -/
theorem parseFile_emits_data_rows_witness :
    (∀ r ∈ [["id", "code"], ["1", "A"], ["2", "B"]], 2 ≤ r.length) ∧
    (emitted (parseFile.run 8 (.spawned (some
      ([["id", "code"], ["1", "A"], ["2", "B"]].map ReadResult.record)))).2).map some =
        [["id", "code"], ["1", "A"], ["2", "B"]].tail.map (fun r => r[1]?) :=
  ⟨by decide,
    (parseFile_emits_data_rows [["id", "code"], ["1", "A"], ["2", "B"]] (by decide) 8
      (by decide)).2.1⟩

/-- C5: a file that opens, whose header `hdr` and rows `data` (rows 2 to k-1) decode
and whose next read (row k) fails, scanned by `parseFile` with no cancellation from
elsewhere.  The rows that the reader decodes have the field count of the first one.
With enough steps the goroutine has sent exactly the index-1 fields of `data`, in
order, and nothing of row k or of the reads after it (`later`); so the map built
from what it sent counts, for every value, the rows of `data` with that index-1
field.  When those fields exist (or there is no data row) the goroutine returns
having assigned 2 to `exitCode`. -/
theorem parseFile_stops_at_decode_failure (hdr : List String) (data : List (List String))
    (later : List ReadResult) (hwidth : ∀ r ∈ data, r.length = hdr.length) (fuel : Nat)
    (hfuel : 2 * data.length + 3 ≤ fuel) :
    emitted (parseFile.run fuel (.spawned (some
        (.record hdr :: (data.map ReadResult.record ++ .parseError :: later))))).2 =
      data.filterMap (fun r => r[1]?) ∧
    (∀ v, (mapCodes (emitted (parseFile.run fuel (.spawned (some
        (.record hdr :: (data.map ReadResult.record ++ .parseError :: later))))).2)).get v =
      (data.filter (fun r => decide (r[1]? = some v))).length) ∧
    ((2 ≤ hdr.length ∨ data = []) →
      (parseFile.run fuel (.spawned (some
        (.record hdr :: (data.map ReadResult.record ++ .parseError :: later))))).1
          = .returned ∧
      recorded (parseFile.run fuel (.spawned (some
        (.record hdr :: (data.map ReadResult.record ++ .parseError :: later))))).2 = [2]) := by
  have key : emitted (parseFile.run fuel (.spawned (some
        (.record hdr :: (data.map ReadResult.record ++ .parseError :: later))))).2 =
      data.filterMap (fun r => r[1]?) ∧
    ((2 ≤ hdr.length ∨ data = []) →
      (parseFile.run fuel (.spawned (some
        (.record hdr :: (data.map ReadResult.record ++ .parseError :: later))))).1
          = .returned ∧
      recorded (parseFile.run fuel (.spawned (some
        (.record hdr :: (data.map ReadResult.record ++ .parseError :: later))))).2 = [2]) := by
    by_cases hwide : 2 ≤ hdr.length ∨ data = []
    · have hdata : ∀ r ∈ data, 2 ≤ r.length := by
        intro r hr
        rcases hwide with hw | hw
        · rw [hwidth r hr]
          exact hw
        · rw [hw] at hr
          simp at hr
      obtain ⟨codes, hc⟩ := codes_of_two_fields data hdata
      obtain ⟨n, rfl⟩ : ∃ n, fuel = 2 * data.length + (n + 1) + 1 + 1 :=
        ⟨fuel - (2 * data.length + 3), by omega⟩
      have hrun := parseFile.run_file hdr data codes hc (.parseError :: later) (n + 1)
      rw [hrun]
      simp only [parseFile.run_parseError, emitted, emitted_append,
        emitted_dataEffects, recorded, recorded_append, recorded_dataEffects,
        List.append_nil, List.nil_append, filterMap_codes data codes hc, true_and,
        implies_true]
    · simp only [not_or, not_le] at hwide
      obtain ⟨hshort, hne⟩ := hwide
      cases data with
      | nil => exact absurd rfl hne
      | cons r rest =>
        have hr : ∀ x ∈ r :: rest, x[1]? = none := by
          intro x hx
          apply List.getElem?_eq_none
          rw [hwidth x hx]
          omega
        obtain ⟨n, rfl⟩ : ∃ n, fuel = n + 1 + 1 + 1 := ⟨fuel - 3, by omega⟩
        have hf : (r :: rest).filterMap (fun x => x[1]?) = [] := by
          rw [List.filterMap_eq_nil_iff]
          exact hr
        have h3 := parseFile.run_short n 1 r
          (rest.map ReadResult.record ++ .parseError :: later) (by omega)
          (hr r (List.mem_cons_self _ _))
        rw [hf]
        simp only [parseFile.run, parseFile.step, Nat.zero_add, if_true, List.map_cons,
          List.cons_append] at h3 ⊢
        rw [h3]
        refine ⟨rfl, ?_⟩
        intro hc
        rcases hc with hc | hc
        · omega
        · simp at hc
  refine ⟨key.1, ?_, key.2⟩
  intro v
  rw [key.1]
  unfold mapCodes
  rw [get_foldl_countCode, count_filterMap_codes]
  simp [GoMap.get, GoMap.lookup, GoMap.empty, GoMap.lookupIn]

/-- Witness of C5 on a file whose fourth read fails. -/
theorem parseFile_stops_at_decode_failure_witness :
    (∀ r ∈ [["1", "A"], ["2", "B"]], r.length = ["id", "code"].length) ∧
    emitted (parseFile.run 7 (.spawned (some
        (.record ["id", "code"] :: ([["1", "A"], ["2", "B"]].map ReadResult.record ++
          .parseError :: [.record ["4", "D"]]))))).2 =
      [["1", "A"], ["2", "B"]].filterMap (fun r => r[1]?) :=
  ⟨by decide,
    (parseFile_stops_at_decode_failure ["id", "code"] [["1", "A"], ["2", "B"]]
      [.record ["4", "D"]] (by decide) 7 (by decide)).1⟩

/-- C1: files that all open and decode without error, every row having at least two
fields, and no interrupt.  Under every schedule the program does not panic, takes a
bounded number of steps, can always move on until `mapCodes` has returned, and the
map that `mapCodes` then returns assigns to each string `v` exactly the number of
rows after the header, over all files, whose index-1 field is `v`, and has no other
key. -/
theorem scan_counts_every_data_row (rowss : List (List (List String)))
    (hrows : ∀ rows ∈ rowss, ∀ r ∈ rows, 2 ≤ r.length) (sched : List Label)
    (hquiet : Label.interrupt ∉ sched) (s : Sys) (es : List Event)
    (hrun : run (Sys.init (cleanFiles rowss)) sched = some (s, es)) :
    s.panicked = false ∧ s.ctxDone = false ∧ s.exitCode = 0 ∧
    sched.length + s.measure ≤ (Sys.init (cleanFiles rowss)).measure ∧
    (s.collected = false → ∃ l, l ≠ Label.interrupt ∧ (step s l).isSome = true) ∧
    (s.collected = true →
      s.mp = mapCodes (received es) ∧
      ∀ v, s.mp.lookup v =
        if totalCount rowss v = 0 then none else some (totalCount rowss v)) := by
  have hinv0 := inv_init (cleanFiles rowss)
  have hinv := inv_run sched _ s es hinv0 hrun
  have hpan := safe_run sched _ s es hinv0 (safe_cleanFiles rowss hrows) rfl hrun
  obtain ⟨hctx, hsev, _⟩ := quiet_run sched _ s es (clean_cleanFiles rowss) rfl hquiet hrun
  refine ⟨hpan, hctx, ?_, measure_run sched _ s es hrun,
    fun hcol => progress s hinv (exited_none s hinv hpan hcol), ?_⟩
  · rw [exitCode_run sched _ s es hrun, hsev]
    rfl
  · intro hcol
    have hmp := mp_init_run _ sched s es hrun
    refine ⟨hmp, ?_⟩
    intro v
    have hcount := quiet_final_count _ sched s es (clean_cleanFiles rowss) hquiet hrun hcol v
    rw [pending_sum_cleanFiles rowss hrows v] at hcount
    rw [hmp, lookup_mapCodes, ← hcount]
    by_cases hz : (received es).count v = 0
    · simp [hz, List.count_eq_zero.mp hz]
    · have : v ∈ received es := List.count_pos_iff.mp (Nat.pos_of_ne_zero hz)
      simp [hz, this]

/-- Witness of C1: two files sharing the code `A`, scanned under a schedule that
alternates between the two goroutines. -/
theorem scan_counts_every_data_row_witness :
    (∀ rows ∈ sharedCodeRows, ∀ r ∈ rows, 2 ≤ r.length) ∧
    Label.interrupt ∉ alternatingSchedule ∧
    run (Sys.init (cleanFiles sharedCodeRows)) alternatingSchedule =
      some (alternatingFinal, alternatingEvents) ∧
    (alternatingFinal.collected = true →
      alternatingFinal.mp = mapCodes (received alternatingEvents) ∧
      ∀ v, alternatingFinal.mp.lookup v =
        if totalCount sharedCodeRows v = 0 then none
        else some (totalCount sharedCodeRows v)) :=
  ⟨by decide, by decide, by decide,
    (scan_counts_every_data_row sharedCodeRows (by decide) alternatingSchedule (by decide)
      alternatingFinal alternatingEvents (by decide)).2.2.2.2.2⟩

/-- C2, as stated, fails: a file fails to decode (2 is assigned to `exitCode`),
then another file fails to open (1 is assigned); no goroutine panics and `main`
ends the process with status 1 although a decode failure was recorded. -/
theorem exit_status_not_strongest :
    (run (Sys.init [some [.record ["id", "code"], .parseError], none])
      [.producer 0 false, .producer 0 false, .producer 0 false, .producer 1 false,
        .close, .collect, .exit]).map
      (fun r => (severities r.2, r.1.panicked, r.1.exited)) =
        some ([2, 1], false, some 1) := by
  decide

/-- C2, amended: in every execution in which no goroutine panics, the process goes
on until the `os.Exit(exitCode)` of `main`, within a bounded number of steps, and
its exit status is the value assigned to `exitCode` last, 0 when no goroutine
failed; the values assigned are 1, by a goroutine whose `os.Open` fails, and 2, by a
goroutine whose read fails.  So the status is 1 when only open failures are
recorded and 2 when only decode failures are. -/
theorem exit_status_is_last_assignment (files : List FileSource) (sched : List Label)
    (s : Sys) (es : List Event) (hrun : run (Sys.init files) sched = some (s, es))
    (hpan : s.panicked = false) :
    s.exitCode = (severities es).getLast?.getD 0 ∧
    (∀ c ∈ severities es, c = 1 ∨ c = 2) ∧
    (∀ st, s.exited = some st →
      st = (severities es).getLast?.getD 0 ∧
      (severities es = [] → st = 0) ∧
      (severities es ≠ [] → 2 ∉ severities es → st = 1) ∧
      (severities es ≠ [] → 1 ∉ severities es → st = 2)) ∧
    (s.exited = none → ∃ l, l ≠ Label.interrupt ∧ (step s l).isSome = true) ∧
    sched.length + s.measure ≤ (Sys.init files).measure ∧
    (∀ (b : Bool) (p p' : Producer) (c : Nat), parseFile.step b p = some (p', .fail c) →
      (p = .spawned none ∧ c = 1) ∨
        (∃ rest count, p = .reading (.parseError :: rest) count ∧ c = 2)) := by
  have hinv := inv_run sched _ s es (inv_init files) hrun
  have hlast : s.exitCode = (severities es).getLast?.getD 0 := by
    rw [exitCode_run sched _ s es hrun]
    rfl
  have hval := severities_run sched _ s es hrun
  have hmem : severities es ≠ [] → s.exitCode ∈ severities es := by
    intro hne
    rw [hlast, List.getLast?_eq_getLast _ hne]
    exact List.getLast_mem hne
  refine ⟨hlast, hval, ?_, progress s hinv, measure_run sched _ s es hrun,
    fun b p p' c h => Producer.fail_step b p p' c h⟩
  intro st hst
  have hst2 : st = s.exitCode := by
    rcases hinv.exited_status st hst with ⟨h, _⟩ | ⟨_, h⟩
    · rw [hpan] at h
      simp at h
    · exact h
  subst hst2
  refine ⟨hlast, ?_, ?_, ?_⟩
  · intro hnil
    rw [hlast, hnil]
    rfl
  · intro hne h2
    have hm := hmem hne
    rcases hval _ hm with h | h
    · exact h
    · rw [h] at hm
      exact absurd hm h2
  · intro hne h1
    have hm := hmem hne
    rcases hval _ hm with h | h
    · rw [h] at hm
      exact absurd hm h1
    · exact h

/-- Witness of C2 amended: the open failure is recorded first and the decode failure
last, no goroutine panics, and the process ends with status 2. -/
theorem exit_status_is_last_assignment_witness :
    run (Sys.init openThenDecodeFiles) openThenDecodeSchedule =
      some (openThenDecodeFinal, openThenDecodeEvents) ∧
    openThenDecodeFinal.panicked = false ∧
    openThenDecodeFinal.exited = some 2 ∧
    (∀ st, openThenDecodeFinal.exited = some st →
      st = (severities openThenDecodeEvents).getLast?.getD 0 ∧
      (severities openThenDecodeEvents = [] → st = 0) ∧
      (severities openThenDecodeEvents ≠ [] → 2 ∉ severities openThenDecodeEvents → st = 1) ∧
      (severities openThenDecodeEvents ≠ [] → 1 ∉ severities openThenDecodeEvents → st = 2)) :=
  ⟨by decide, by decide, by decide,
    (exit_status_is_last_assignment openThenDecodeFiles openThenDecodeSchedule
      openThenDecodeFinal openThenDecodeEvents (by decide) (by decide)).2.2.1⟩

/-- C3, as stated, fails: one file cannot be opened, the other is valid and holds the
code `A` twice.  The open failure cancels the context, the other goroutine takes
the case `<-ctx.Done()` at its first `select` and returns: `main` reaches its report
with an empty map, so the duplicate is not reported. -/
theorem open_failure_stops_other_files :
    (run (Sys.init [none, some [.record ["id", "code"], .record ["1", "A"], .record ["2", "A"]]])
      [.producer 0 false, .producer 1 false, .producer 1 false, .producer 1 false,
        .producer 1 true, .close, .collect]).map
      (fun r => (r.1.collected, r.1.panicked, r.1.mp.lookup "A", reportLoop r.1.mp.entries))
      = some (true, false, none, []) := by
  decide

/-- C3, amended: files each of which either fails to open or opens and decodes
without error into rows of at least two fields.  Under every schedule the program
does not panic, takes a bounded number of steps and can always move on until
`mapCodes` has returned.  The map counts exactly the values handed over by the
goroutines; the goroutine of a file that opened hands over the index-1 fields of an
initial segment of the rows after the header, in order, and of all of them when it
never takes the case `<-ctx.Done()`; the goroutine of a file that failed to open
hands over nothing. -/
theorem open_failure_keeps_initial_segments (files : List FileSource)
    (hfiles : ∀ f ∈ files, f = none ∨
      ∃ rows : List (List String), f = some (rows.map ReadResult.record) ∧
        ∀ r ∈ rows, 2 ≤ r.length)
    (sched : List Label) (s : Sys) (es : List Event)
    (hrun : run (Sys.init files) sched = some (s, es)) :
    s.panicked = false ∧
    sched.length + s.measure ≤ (Sys.init files).measure ∧
    (s.collected = false → ∃ l, l ≠ Label.interrupt ∧ (step s l).isSome = true) ∧
    s.mp = mapCodes (received es) ∧
    (∀ v, s.mp.get v =
      Finset.sum (Finset.range files.length) (fun i => (sendsOf i es).count v)) ∧
    (∀ (i : Nat) (rows : List (List String)),
      files[i]? = some (some (rows.map ReadResult.record)) →
        (sendsOf i es).map some <+: rows.tail.map (fun r => r[1]?) ∧
        (s.collected = true → Event.prod i .sawDone ∉ es →
          (sendsOf i es).map some = rows.tail.map (fun r => r[1]?))) ∧
    (∀ i : Nat, files[i]? = some none → sendsOf i es = []) := by
  have hinv0 := inv_init files
  have hinv := inv_run sched _ s es hinv0 hrun
  have hpan := safe_run sched _ s es hinv0 (safe_init files hfiles) rfl hrun
  have hmp := mp_init_run _ sched s es hrun
  refine ⟨hpan, measure_run sched _ s es hrun,
    fun hcol => progress s hinv (exited_none s hinv hpan hcol), hmp, ?_, ?_, ?_⟩
  · intro v
    have hr := received_count_run sched _ s es v hrun
    have hlen : (Sys.init files).producers.length = files.length := by simp [Sys.init]
    rw [hlen] at hr
    rw [hmp, ← hr]
    unfold mapCodes
    rw [get_foldl_countCode]
    simp [GoMap.get, GoMap.lookup, GoMap.empty, GoMap.lookupIn]
  · intro i rows hi
    have hmem : some (rows.map ReadResult.record) ∈ files := getElem?_mem_of_some _ _ _ hi
    have hwide : ∀ r ∈ rows, 2 ≤ r.length := by
      rcases hfiles _ hmem with h | ⟨rows2, h, hw⟩
      · simp at h
      · have hinj : Function.Injective ReadResult.record := by
          intro a b hab
          simpa using hab
        have : rows = rows2 := List.map_injective_iff.mpr hinj (Option.some.inj h)
        rw [this]
        exact hw
    have hpend : (Sys.init files).pendingAt i = pendingRows (rows.map ReadResult.record) 0 := by
      rw [pendingAt_init, hi]
    have hclean := pending_cleanFile rows hwide
    constructor
    · have hle := pending_run_le sched _ s es i hrun
      rw [hpend] at hle
      have hle2 : sendsOf i es <+: pendingRows (rows.map ReadResult.record) 0 :=
        (List.prefix_append _ _).trans hle
      rw [← hclean]
      exact hle2.map some
    · intro hcol hnd
      have heq := pending_run_eq sched _ s es i hinv0 hrun hnd
      rw [pendingAt_collected s hinv hcol i, List.append_nil, hpend] at heq
      rw [heq, hclean]
  · intro i hi
    have hle := pending_run_le sched _ s es i hrun
    rw [pendingAt_init, hi] at hle
    have hle2 : sendsOf i es <+: [] := (List.prefix_append _ _).trans hle
    exact List.prefix_nil.mp hle2

/-- Witness of C3 amended: after the open failure the goroutine of the valid file
hands over its first code, then sees the cancellation; the map counts `A` once. -/
theorem open_failure_keeps_initial_segments_witness :
    (∀ f ∈ unreadableAndPair, f = none ∨
      ∃ rows : List (List String), f = some (rows.map ReadResult.record) ∧
        ∀ r ∈ rows, 2 ≤ r.length) ∧
    run (Sys.init unreadableAndPair) cancelledMidwaySchedule =
      some (cancelledMidwayFinal, cancelledMidwayEvents) ∧
    cancelledMidwayFinal.panicked = false ∧
    cancelledMidwayFinal.mp = mapCodes (received cancelledMidwayEvents) ∧
    sendsOf 1 cancelledMidwayEvents = ["A"] := by
  have hfiles : ∀ f ∈ unreadableAndPair, f = none ∨
      ∃ rows : List (List String), f = some (rows.map ReadResult.record) ∧
        ∀ r ∈ rows, 2 ≤ r.length := by
    intro f hf
    simp only [unreadableAndPair, List.mem_cons, List.mem_singleton, List.not_mem_nil,
      or_false] at hf
    rcases hf with rfl | rfl
    · exact Or.inl rfl
    · exact Or.inr ⟨[["id", "code"], ["1", "A"], ["2", "A"]], rfl, by decide⟩
  have h := open_failure_keeps_initial_segments unreadableAndPair hfiles
    cancelledMidwaySchedule cancelledMidwayFinal cancelledMidwayEvents (by decide)
  exact ⟨hfiles, by decide, h.1, h.2.2.2.1, by decide⟩

/-- C4, at a file of one column (a header and one data row of a single field each,
both decoded without error): the index expression `row[1]` at the data row is out of
range and the goroutine panics instead of returning, in every execution, so that
`main` reaches its report only after the panic; the runtime then ends the process
with status 2, which it can do before `main` has reached the report loop (when
`main` is faster it reports and ends the process with status 0). -/
theorem short_row_panics :
    parseFile.run 3 (.spawned oneColumnFile) =
      (.crashed, [.silent, .silent, .indexPanic]) ∧
    run (Sys.init [oneColumnFile]) panicThenAbort =
      some (oneColumnAborted, oneColumnAbortedEvents) ∧
    oneColumnAborted.collected = false ∧ oneColumnAborted.exited = some 2 ∧
    (∀ l, step oneColumnAborted l = none) ∧
    (run (Sys.init [oneColumnFile])
      [.producer 0 false, .producer 0 false, .producer 0 false, .close, .collect,
        .exit]).map (fun r => (r.1.panicked, r.1.collected, r.1.exited))
        = some (true, true, some 0) ∧
    (∀ sched s es, run (Sys.init [oneColumnFile]) sched = some (s, es) →
      Producer.returned ∉ s.producers ∧ (s.collected = true → s.panicked = true)) := by
  refine ⟨by decide, by decide, rfl, rfl, fun l => step_exited _ l rfl, by decide, ?_⟩
  intro sched s es hrun
  obtain ⟨hnot, hcl, _⟩ := oneColumn_never_returns sched s es hrun
  have hinv := inv_run sched _ s es (inv_init _) hrun
  exact ⟨hnot, fun hcol => hcl (hinv.collected_closed hcol)⟩

/-- C10, at a file of one column scanned alone: its goroutine panics on `row[1]`
and the deferred `wg.Done()` brings the counter to zero.  In the execution in which
the runtime ends the process right after the panic, the channel has not been closed
(no close event) and `mapCodes` has not returned, and nothing moves any more.  In
every execution the goroutine never returns: when the channel is closed, it is
after the panic of `parseFile`, not after its return. -/
theorem short_row_leaves_channel_open :
    run (Sys.init [oneColumnFile]) panicThenAbort =
      some (oneColumnAborted, oneColumnAbortedEvents) ∧
    oneColumnAborted.wg = 0 ∧ oneColumnAborted.chanClosed = false ∧
    oneColumnAborted.collected = false ∧ oneColumnAborted.exited = some 2 ∧
    oneColumnAbortedEvents.count Event.closed = 0 ∧
    (∀ l, step oneColumnAborted l = none) ∧
    (∀ sched s es, run (Sys.init [oneColumnFile]) sched = some (s, es) →
      Producer.returned ∉ s.producers ∧
      (s.chanClosed = true → s.panicked = true ∧ s.producers = [.crashed])) := by
  refine ⟨by decide, rfl, rfl, rfl, rfl, by decide, fun l => step_exited _ l rfl, ?_⟩
  intro sched s es hrun
  obtain ⟨hnot, hcl, hwg⟩ := oneColumn_never_returns sched s es hrun
  have hinv := inv_run sched _ s es (inv_init _) hrun
  exact ⟨hnot, fun hc => ⟨hcl hc, hwg (hinv.closed_wg hc)⟩⟩

/-- C9: for every frequency map `m` and every order in which the `range` of `main`
yields its entries, the report loop prints the line of an entry `(v, c)` exactly once
when `c > 1` and never when `c <= 1`, and prints nothing else.  For the files A with
rows header, `[x, CODE1]`, `[x, CODE2]` and B with rows header, `[x, CODE1]`, scanned
without interrupt, the report is the single line
`DUPLICATE FOUND: CODE1 found 2 times`, whatever the schedule and the order of the
`range`. -/
theorem report_prints_each_duplicate_once (m : GoMap) (hwf : m.WF)
    (order : List (String × Nat)) (horder : order.Perm m.entries) :
    (∀ v c, (reportLoop order).count (duplicateLine v c) =
      if m.lookup v = some c ∧ c > 1 then 1 else 0) ∧
    (∀ line ∈ reportLoop order, ∃ v c, line = duplicateLine v c ∧ m.lookup v = some c ∧
      c > 1) ∧
    (∀ (hdrA hdrB : List String) (sched : List Label) (s : Sys) (es : List Event)
      (range : List (String × Nat)),
      Label.interrupt ∉ sched →
      run (Sys.init [some [.record hdrA, .record ["x", "CODE1"], .record ["x", "CODE2"]],
        some [.record hdrB, .record ["x", "CODE1"]]]) sched = some (s, es) →
      s.collected = true → range.Perm s.mp.entries →
      reportLoop range = ["DUPLICATE FOUND: CODE1 found 2 times\n"]) := by
  have hnodup : order.Nodup := horder.nodup_iff.mpr (List.Nodup.of_map _ hwf)
  have hmem : ∀ v c, (v, c) ∈ order ↔ m.lookup v = some c := by
    intro v c
    rw [horder.mem_iff]
    exact (GoMap.lookupIn_eq_some_iff v c _ hwf).symm
  refine ⟨?_, ?_, ?_⟩
  · intro v c
    rw [count_reportLoop order hnodup v c]
    simp only [hmem]
  · intro line hline
    rw [reportLoop_eq] at hline
    simp only [List.mem_map, List.mem_filter, decide_eq_true_eq] at hline
    obtain ⟨⟨v, c⟩, ⟨hin, hc⟩, rfl⟩ := hline
    exact ⟨v, c, rfl, (hmem v c).mp hin, hc⟩
  · intro hdrA hdrB sched s es range hq hrun hcol hrange
    have hfiles : [some [ReadResult.record hdrA, .record ["x", "CODE1"], .record ["x", "CODE2"]],
        some [ReadResult.record hdrB, .record ["x", "CODE1"]]] =
        cleanFiles [[hdrA, ["x", "CODE1"], ["x", "CODE2"]], [hdrB, ["x", "CODE1"]]] := rfl
    rw [hfiles] at hrun
    have hcount : ∀ v, (received es).count v = ["CODE1", "CODE2", "CODE1"].count v := by
      intro v
      rw [quiet_final_count _ sched s es (clean_cleanFiles _) hq hrun hcol v]
      simp [Sys.init, cleanFiles, Producer.pending, pendingRows, List.count_cons]
      omega
    have hmp := mp_init_run _ sched s es hrun
    have hlook := lookup_of_count_eq (received es) ["CODE1", "CODE2", "CODE1"] hcount
    rw [← hmp] at hlook
    have hswf : s.mp.WF := by
      rw [hmp]
      exact wf_mapCodes _
    have hperm := entries_perm_of_lookup_eq s.mp (mapCodes ["CODE1", "CODE2", "CODE1"]) hswf
      (wf_mapCodes _) hlook
    have hrep := reportLoop_perm _ _ (hrange.trans hperm)
    have hval : reportLoop (mapCodes ["CODE1", "CODE2", "CODE1"]).entries =
        ["DUPLICATE FOUND: CODE1 found 2 times\n"] := by decide
    rw [hval] at hrep
    exact List.perm_singleton.mp hrep

/-- Witness of C9: the map of the scenario, its entries yielded in reverse order. -/
theorem report_prints_each_duplicate_once_witness :
    (mapCodes ["CODE1", "CODE2", "CODE1"]).WF ∧
    [("CODE2", 1), ("CODE1", 2)].Perm (mapCodes ["CODE1", "CODE2", "CODE1"]).entries ∧
    (∀ v c, (reportLoop [("CODE2", 1), ("CODE1", 2)]).count (duplicateLine v c) =
      if (mapCodes ["CODE1", "CODE2", "CODE1"]).lookup v = some c ∧ c > 1 then 1 else 0) :=
  ⟨by decide, by decide,
    (report_prints_each_duplicate_once (mapCodes ["CODE1", "CODE2", "CODE1"]) (by decide)
      [("CODE2", 1), ("CODE1", 2)] (by decide)).1⟩

end DuplicateCsv
